import Mathlib

/-!
# any-whois-server: `query.go`

A shallow embedding of `query.go` and proofs about it.

* Go strings are byte sequences: `GoString` is a list of byte values.
* `strings.HasPrefix`, `strings.Fields`, `unicode.IsSpace` and the UTF-8 decoding
  of Go's `range` loop over a string are embedded from the Go standard library.
* A `bufio.Scanner` run to exhaustion is the list of lines it yields followed by
  the value of `sc.Err()`.
* `main` with its goroutines is a step relation on a state holding the program
  counters of `main`, of the collector and of each worker, the channel `sem`,
  the wait group and the rows written to the file.
-/

namespace WhoisQuery

/-! ## Go strings -/

/-- A Go string: its bytes, each a value below 256. -/
abbrev GoString := List Nat

/-- The bytes of a string literal written with ASCII characters only. -/
def lit (s : String) : GoString := s.toList.map Char.toNat

/-- Go `strings.HasPrefix`: `len(s) >= len(prefix) && s[:len(prefix)] == prefix`. -/
def HasPrefix (s pre : GoString) : Bool :=
  decide (pre.length ≤ s.length) && (s.take pre.length == pre)

/-- Go `utf8.RuneError`, the replacement character U+FFFD. -/
def RuneError : Nat := 0xFFFD

/-- Whether `b` lies in `lo..hi`, bounds included. -/
def inRange (lo hi b : Nat) : Bool := decide (lo ≤ b) && decide (b ≤ hi)

/-- Go `utf8.DecodeRuneInString`, which is also what a `range` loop over a string
does at each position: the rune at the head of `s` and the number of bytes it
takes. Invalid or short encodings give `(RuneError, 1)`; the second byte of a
sequence starting with E0, ED, F0 or F4 has a narrower accepted range. -/
def decodeRune (s : GoString) : Nat × Nat :=
  match s with
  | [] => (RuneError, 0)
  | s0 :: t =>
    if s0 < 0x80 then (s0, 1)
    else if s0 < 0xC2 then (RuneError, 1)
    else if s0 < 0xE0 then
      match t with
      | s1 :: _ =>
        if inRange 0x80 0xBF s1 then ((s0 % 0x20) * 0x40 + s1 % 0x40, 2) else (RuneError, 1)
      | [] => (RuneError, 1)
    else if s0 < 0xF0 then
      match t with
      | s1 :: s2 :: _ =>
        if inRange (if s0 = 0xE0 then 0xA0 else 0x80) (if s0 = 0xED then 0x9F else 0xBF) s1
            && inRange 0x80 0xBF s2 then
          ((s0 % 0x10) * 0x1000 + (s1 % 0x40) * 0x40 + s2 % 0x40, 3)
        else (RuneError, 1)
      | _ => (RuneError, 1)
    else if s0 < 0xF5 then
      match t with
      | s1 :: s2 :: s3 :: _ =>
        if inRange (if s0 = 0xF0 then 0x90 else 0x80) (if s0 = 0xF4 then 0x8F else 0xBF) s1
            && inRange 0x80 0xBF s2 && inRange 0x80 0xBF s3 then
          ((s0 % 0x08) * 0x40000 + (s1 % 0x40) * 0x1000 + (s2 % 0x40) * 0x40 + s3 % 0x40, 4)
        else (RuneError, 1)
      | _ => (RuneError, 1)
    else (RuneError, 1)

/-- Go `for end, rune := range s`: the runes of `s` in order, each with the bytes
it was decoded from. The first argument bounds the number of iterations;
`s.length` is enough since each iteration consumes at least one byte. -/
def rangeLoop : Nat → GoString → List (Nat × GoString)
  | 0, _ => []
  | _ + 1, [] => []
  | n + 1, b :: t =>
    ((decodeRune (b :: t)).1, (b :: t).take (decodeRune (b :: t)).2)
      :: rangeLoop n ((b :: t).drop (decodeRune (b :: t)).2)

/-- The runes of a string with their bytes. -/
def runes (s : GoString) : List (Nat × GoString) := rangeLoop s.length s

/-- Go `unicode.IsSpace`: the Latin-1 spaces `\t \n \v \f \r`, space, U+0085,
U+00A0, and the other characters of Unicode's White_Space property. -/
def IsSpace (r : Nat) : Bool :=
  inRange 0x09 0x0D r || r == 0x20 || r == 0x85 || r == 0xA0 || r == 0x1680
    || inRange 0x2000 0x200A r || r == 0x2028 || r == 0x2029 || r == 0x202F
    || r == 0x205F || r == 0x3000

/-- The table `asciiSpace` of Go's `strings` package. -/
def asciiSpace (b : Nat) : Bool :=
  b == 0x09 || b == 0x0A || b == 0x0B || b == 0x0C || b == 0x0D || b == 0x20

/-- The loop of Go `strings.FieldsFunc` over the runes of the string. The second
argument is the field being read: `none` when `start < 0`, otherwise the bytes
`s[start:end]`; a separator closes the open field, and the end of the string
closes it too. -/
def fieldsLoop (f : Nat → Bool) : List (Nat × GoString) → Option GoString → List GoString
  | [], none => []
  | [], some cur => [cur]
  | (r, bs) :: rest, none =>
    if f r then fieldsLoop f rest none else fieldsLoop f rest (some bs)
  | (r, bs) :: rest, some cur =>
    if f r then cur :: fieldsLoop f rest none else fieldsLoop f rest (some (cur ++ bs))

/-- Go `strings.FieldsFunc`. -/
def FieldsFunc (s : GoString) (f : Nat → Bool) : List GoString :=
  fieldsLoop f (runes s) none

/-- Go `strings.Fields`: a string whose bytes are all below `utf8.RuneSelf` is
split byte by byte with the table `asciiSpace`; any other string goes to
`FieldsFunc(s, unicode.IsSpace)`. -/
def Fields (s : GoString) : List GoString :=
  if s.all (fun b => decide (b < 0x80)) then
    fieldsLoop asciiSpace (s.map (fun b => (b, [b]))) none
  else FieldsFunc s IsSpace

/-! ## Errors, readers and the scanner -/

/-- Go `error` values seen by the program: the package's own `NoServerFound`,
created by `errors.New`, and the errors made outside the package (by `net`,
`net/http`, `bufio` and the reader), told apart by a number. -/
inductive GoError where
  | NoServerFound
  | external (id : Nat)
  deriving DecidableEq, Repr

/-- What a `bufio.Scanner` over a reader yields when run to exhaustion: the lines
for which `sc.Scan()` is true, in order, and then the value of `sc.Err()`, `none`
for a stream that ended cleanly and otherwise the number of the error (of the
reader, or `bufio.ErrTooLong` and the like). -/
structure Reader where
  lines : List GoString
  err : Option Nat
  deriving DecidableEq, Repr

/-- The sentinel prefix `"whois:"`. -/
def whoisPrefix : GoString := lit "whois:"

/-- The loop of `search`. The result is `none` when `ts[len(ts)-1]` is out of
range (a run-time panic), and otherwise the pair `(server, err)` returned. -/
def searchLoop : List GoString → Option Nat → Option (GoString × Option GoError)
  | [], some e => some ([], some (GoError.external e))
  | [], none => some ([], some GoError.NoServerFound)
  | line :: rest, scErr =>
    if HasPrefix line whoisPrefix then
      match (Fields line)[(Fields line).length - 1]? with
      | some server => some (server, none)
      | none => none
    else searchLoop rest scErr

/-- The function `search` of `query.go`. -/
def search (r : Reader) : Option (GoString × Option GoError) :=
  searchLoop r.lines r.err

/-- The outcome of `net.Dial` and of the exchange on the connection, for one call
of `queryWhoisServer`: the error of `net.Dial` if it fails, and the response the
scanner reads after the request frame was written. -/
structure Network where
  dialErr : Option Nat
  respond : GoString → Reader

/-- The function `queryWhoisServer` of `query.go`: dial, write `tld` followed by
`\r\n`, and search the response. -/
def queryWhoisServer (net : Network) (tld : GoString) : Option (GoString × Option GoError) :=
  match net.dialErr with
  | some e => some ([], some (GoError.external e))
  | none => search (net.respond (tld ++ [0x0D, 0x0A]))

/-- The struct `item` of `query.go`. -/
structure item where
  tld : GoString
  server : GoString
  deriving DecidableEq, Repr

/-- One `lg.Info("get whois server  failed", ...)` record. -/
structure LogEntry where
  tld : GoString
  err : GoError
  deriving DecidableEq, Repr

/-- The body of a worker goroutine up to its send: the records it logs and the
item it then sends on `tabc`; `none` if `queryWhoisServer` panics. -/
def workerBody (net : Network) (tld : GoString) : Option (List LogEntry × item) :=
  match queryWhoisServer net tld with
  | none => none
  | some (server, some e) => some ([⟨tld, e⟩], ⟨tld, server⟩)
  | some (server, none) => some ([], ⟨tld, server⟩)

/-- The outcome of `http.Get(TldUrl)`: an error, or a response whose body the
scanner reads. -/
inductive HttpGet where
  | fail (e : Nat)
  | body (r : Reader)

/-- The loop of `getAllTlds`: a line starting with `#` is skipped, a line of
positive length is appended to `tlds`. -/
def getAllTldsLoop : List GoString → List GoString → List GoString
  | [], tlds => tlds
  | line :: rest, tlds =>
    if HasPrefix line (lit "#") then getAllTldsLoop rest tlds
    else if 0 < line.length then getAllTldsLoop rest (tlds ++ [line])
    else getAllTldsLoop rest tlds

/-- The function `getAllTlds` of `query.go`, returning `(tlds, err)`. -/
def getAllTlds (res : HttpGet) : List GoString × Option GoError :=
  match res with
  | HttpGet.fail e => ([], some (GoError.external e))
  | HttpGet.body r =>
    match r.err with
    | some e => ([], some (GoError.external e))
    | none => (getAllTldsLoop r.lines [], none)

/-- A string none of whose runes is white space. -/
def whitespaceFree (s : GoString) : Bool :=
  (runes s).all (fun p => !IsSpace p.1)

/-! ## `main`: the dispatch loop, the workers and the collector -/

/-- The package variable `semNum`, the capacity of the channel `sem`. -/
def semNum : Nat := 100

/-- Where `main` stands. `loop i`: at the head of the `range` loop with `i`
identifiers dispatched, about to send on `sem` for `tlds[i]`, or, when `i` is
`len(tlds)`, at `wg.Wait()`. `spawn i`: the send on `sem` for `tlds[i]` is done,
`wg.Add(1)` and the `go` statement are next. `done`: `wg.Wait()` has returned,
`"done"` is logged and `main` has returned, which ends the process. -/
inductive MainPc where
  | loop (i : Nat)
  | spawn (i : Nat)
  | done
  deriving DecidableEq, Repr

/-- Where a worker goroutine stands. `query`: started, inside
`queryWhoisServer`. `send it`: at `tabc <- it`. `deferred`: the send is
complete, the deferred function is about to call `wg.Done()`. `release`:
`wg.Done()` is called, `<-sem` is next. `finished`: the goroutine has ended. -/
inductive WorkerPc where
  | query
  | send (it : item)
  | deferred
  | release
  | finished
  deriving DecidableEq, Repr

/-- Where the collector goroutine stands. `listening`: in the `select`.
`writing it`: it received `it` from `tabc` and is about to write its row.
`stopped`: the `time.After` case was taken, the deferred `wg.Done()` is next.
`exited`: the goroutine has ended. -/
inductive CollectorPc where
  | listening
  | writing (it : item)
  | stopped
  | exited
  deriving DecidableEq, Repr

/-- A worker goroutine: its argument, its position, and how many values it has
received from `sem` so far. -/
structure Worker where
  tld : GoString
  pc : WorkerPc
  releases : Nat
  deriving DecidableEq, Repr

/-- The state of a run after the set-up of `main` (file created, feed fetched):
the positions of `main`, of the collector and of the workers in spawn order, the
number of values in the channel `sem`, the counter of the wait group, the rows
written to the file so far (each `Fprintf` writes its row), and the items the
collector has received from `tabc`. -/
structure State where
  main : MainPc
  coll : CollectorPc
  workers : List Worker
  sem : Nat
  wg : Nat
  file : List GoString
  received : List item
  deriving DecidableEq, Repr

/-- The two header rows written before the feed is fetched. -/
def header : List GoString := [lit "|TLD|WHOIS SERVER|\n", lit "|---|---|\n"]

/-- The row `fmt.Fprintf(f, "|%s|%s|\n", it.tld, it.server)` writes. -/
def row (it : item) : GoString :=
  lit "|" ++ it.tld ++ lit "|" ++ it.server ++ lit "|\n"

/-- The state when `main` enters the dispatch loop: the header is written, the
collector was started after `wg.Add(1)`, no worker exists, `sem` is empty. -/
def init : State :=
  { main := MainPc.loop 0, coll := CollectorPc.listening, workers := [], sem := 0, wg := 1,
    file := header, received := [] }

/-- The atomic actions of the goroutines. Those of `main`: `acquire` is
`sem <- struct{}{}`, `spawn` is `wg.Add(1)` with the `go` statement, `finish` is
the return of `wg.Wait()` with what follows it. Those of worker `k`: `query` is
the call of `queryWhoisServer` (under the network behaviour `net`) with the
logging, `deliver` is its send on the unbuffered `tabc` meeting the collector's
receive, `wgDone` and `release` are the two statements of its deferred function.
Those of the collector: `write` is the `Fprintf` of the received item, `timeout`
is the `time.After` case of the `select`, `collDone` its deferred `wg.Done()`.
Time is not part of the state: the `time.After` case can be taken whenever the
collector waits in its `select`. -/
inductive Action where
  | acquire
  | spawn
  | finish
  | query (k : Nat) (net : Network)
  | deliver (k : Nat)
  | wgDone (k : Nat)
  | release (k : Nat)
  | write
  | timeout
  | collDone

/-- One action of `main`. Sending on `sem` blocks while the channel holds `C`
values; `wg.Wait()` returns when the counter is zero. -/
def execMain (C : Nat) (tlds : List GoString) (s : State) : Action → Option State
  | Action.acquire =>
    match s.main with
    | MainPc.loop i =>
      if i < tlds.length ∧ s.sem < C then
        some { s with main := MainPc.spawn i, sem := s.sem + 1 }
      else none
    | _ => none
  | Action.spawn =>
    match s.main with
    | MainPc.spawn i =>
      match tlds[i]? with
      | some tld =>
        some { s with main := MainPc.loop (i + 1), wg := s.wg + 1,
                      workers := s.workers ++ [⟨tld, WorkerPc.query, 0⟩] }
      | none => none
    | _ => none
  | Action.finish =>
    match s.main with
    | MainPc.loop i =>
      if tlds.length ≤ i ∧ s.wg = 0 then some { s with main := MainPc.done } else none
    | _ => none
  | _ => none

/-- One action of the worker `w`, the `k`-th of the state. A send on `tabc`
completes only with the collector in its `select`; `wg.Done()` on a zero counter
and an out-of-range index in `search` are panics (no successor); `<-sem` blocks
on an empty channel. -/
def execWorker (s : State) (k : Nat) (w : Worker) : Action → Option State
  | Action.query _ net =>
    match w.pc with
    | WorkerPc.query =>
      match workerBody net w.tld with
      | some (_, it) => some { s with workers := s.workers.set k { w with pc := WorkerPc.send it } }
      | none => none
    | _ => none
  | Action.deliver _ =>
    match w.pc, s.coll with
    | WorkerPc.send it, CollectorPc.listening =>
      some { s with workers := s.workers.set k { w with pc := WorkerPc.deferred },
                    coll := CollectorPc.writing it, received := s.received ++ [it] }
    | _, _ => none
  | Action.wgDone _ =>
    match w.pc with
    | WorkerPc.deferred =>
      if 0 < s.wg then
        some { s with workers := s.workers.set k { w with pc := WorkerPc.release },
                      wg := s.wg - 1 }
      else none
    | _ => none
  | Action.release _ =>
    match w.pc with
    | WorkerPc.release =>
      if 0 < s.sem then
        some { s with workers := s.workers.set k
                        { w with pc := WorkerPc.finished, releases := w.releases + 1 },
                      sem := s.sem - 1 }
      else none
    | _ => none
  | _ => none

/-- One action of the collector. -/
def execCollector (s : State) : Action → Option State
  | Action.write =>
    match s.coll with
    | CollectorPc.writing it =>
      some { s with coll := CollectorPc.listening, file := s.file ++ [row it] }
    | _ => none
  | Action.timeout =>
    match s.coll with
    | CollectorPc.listening => some { s with coll := CollectorPc.stopped }
    | _ => none
  | Action.collDone =>
    match s.coll with
    | CollectorPc.stopped =>
      if 0 < s.wg then some { s with coll := CollectorPc.exited, wg := s.wg - 1 } else none
    | _ => none
  | _ => none

/-- One step of the run with capacity `C` and identifiers `tlds`: the state after
the action, or `none` when the action is not enabled. Nothing runs once `main`
has returned. -/
def exec (C : Nat) (tlds : List GoString) (s : State) (a : Action) : Option State :=
  if s.main = MainPc.done then none
  else
    match a with
    | Action.acquire | Action.spawn | Action.finish => execMain C tlds s a
    | Action.write | Action.timeout | Action.collDone => execCollector s a
    | Action.query k _ | Action.deliver k | Action.wgDone k | Action.release k =>
      match s.workers[k]? with
      | some w => execWorker s k w a
      | none => none

/-- The state after a sequence of actions, `none` if one of them is not enabled. -/
def run (C : Nat) (tlds : List GoString) : State → List Action → Option State
  | s, [] => some s
  | s, a :: rest =>
    match exec C tlds s a with
    | some s' => run C tlds s' rest
    | none => none

/-- The state `s'` can be reached from `s`. -/
def Reaches (C : Nat) (tlds : List GoString) (s s' : State) : Prop :=
  ∃ acts, run C tlds s acts = some s'

/-- The state `s` occurs in a run from the initial state. -/
def Reachable (C : Nat) (tlds : List GoString) (s : State) : Prop :=
  Reaches C tlds init s

/-- No action is enabled in `s`: every goroutine that has not ended is blocked. -/
def Stuck (C : Nat) (tlds : List GoString) (s : State) : Prop :=
  ∀ a, exec C tlds s a = none

/-- A worker that has been started and has not finished. -/
def WorkerPc.active : WorkerPc → Bool
  | WorkerPc.finished => false
  | _ => true

/-- A worker whose `wg.Done()` is still to come. -/
def WorkerPc.undone : WorkerPc → Bool
  | WorkerPc.query => true
  | WorkerPc.send _ => true
  | WorkerPc.deferred => true
  | _ => false

/-- A worker whose send on `tabc` is complete. -/
def WorkerPc.delivered : WorkerPc → Bool
  | WorkerPc.query => false
  | WorkerPc.send _ => false
  | _ => true

/-- The number of workers started and not yet finished. -/
def running (s : State) : Nat := s.workers.countP (fun w => w.pc.active)

/-- The slot `main` holds between its send on `sem` and the `go` statement. -/
def MainPc.pending : MainPc → Nat
  | MainPc.spawn _ => 1
  | _ => 0

/-- The number of identifiers whose worker `main` has spawned, given `n`
identifiers in all. -/
def MainPc.dispatched (n : Nat) : MainPc → Nat
  | MainPc.loop i => i
  | MainPc.spawn i => i
  | MainPc.done => n

/-- Whether the collector has left its loop. -/
def CollectorPc.isStopped : CollectorPc → Bool
  | CollectorPc.stopped => true
  | CollectorPc.exited => true
  | _ => false

/-- The item the collector holds and has not written yet. -/
def CollectorPc.holding : CollectorPc → List item
  | CollectorPc.writing it => [it]
  | _ => []

/-- The count the collector contributes to the wait group. -/
def CollectorPc.wgShare : CollectorPc → Nat
  | CollectorPc.exited => 0
  | _ => 1

/-- The identifiers of the workers whose send is complete, in spawn order. -/
def deliveredTlds (ws : List Worker) : List GoString :=
  ws.filterMap (fun w => if w.pc.delivered then some w.tld else none)

/-- The `k`-th worker exists and its send on `tabc` is not complete. -/
def undeliveredAt (s : State) (k : Nat) : Prop :=
  ∃ w, s.workers[k]? = some w ∧ w.pc.delivered = false

/-- The steps of `exec` in relational form, the worker that moves singled out of
the list of workers. -/
inductive Step (C : Nat) (tlds : List GoString) : State → State → Prop where
  | acquire (s : State) (i : Nat) (hm : s.main = MainPc.loop i) (hi : i < tlds.length)
      (hsem : s.sem < C) :
      Step C tlds s { s with main := MainPc.spawn i, sem := s.sem + 1 }
  | spawn (s : State) (i : Nat) (tld : GoString) (hm : s.main = MainPc.spawn i)
      (ht : tlds[i]? = some tld) :
      Step C tlds s { s with main := MainPc.loop (i + 1), wg := s.wg + 1,
                             workers := s.workers ++ [⟨tld, WorkerPc.query, 0⟩] }
  | finish (s : State) (i : Nat) (hm : s.main = MainPc.loop i) (hi : tlds.length ≤ i)
      (hwg : s.wg = 0) :
      Step C tlds s { s with main := MainPc.done }
  | query (s : State) (front back : List Worker) (w : Worker) (net : Network)
      (log : List LogEntry) (it : item) (hm : s.main ≠ MainPc.done)
      (hw : s.workers = front ++ w :: back) (hpc : w.pc = WorkerPc.query)
      (hq : workerBody net w.tld = some (log, it)) :
      Step C tlds s { s with workers := front ++ { w with pc := WorkerPc.send it } :: back }
  | deliver (s : State) (front back : List Worker) (w : Worker) (it : item)
      (hm : s.main ≠ MainPc.done) (hw : s.workers = front ++ w :: back)
      (hpc : w.pc = WorkerPc.send it) (hc : s.coll = CollectorPc.listening) :
      Step C tlds s { s with workers := front ++ { w with pc := WorkerPc.deferred } :: back,
                             coll := CollectorPc.writing it, received := s.received ++ [it] }
  | wgDone (s : State) (front back : List Worker) (w : Worker)
      (hm : s.main ≠ MainPc.done) (hw : s.workers = front ++ w :: back)
      (hpc : w.pc = WorkerPc.deferred) (hwg : 0 < s.wg) :
      Step C tlds s { s with workers := front ++ { w with pc := WorkerPc.release } :: back,
                             wg := s.wg - 1 }
  | release (s : State) (front back : List Worker) (w : Worker)
      (hm : s.main ≠ MainPc.done) (hw : s.workers = front ++ w :: back)
      (hpc : w.pc = WorkerPc.release) (hsem : 0 < s.sem) :
      Step C tlds s { s with workers := front ++
                               { w with pc := WorkerPc.finished, releases := w.releases + 1 }
                                 :: back,
                             sem := s.sem - 1 }
  | write (s : State) (it : item) (hm : s.main ≠ MainPc.done)
      (hc : s.coll = CollectorPc.writing it) :
      Step C tlds s { s with coll := CollectorPc.listening, file := s.file ++ [row it] }
  | timeout (s : State) (hm : s.main ≠ MainPc.done) (hc : s.coll = CollectorPc.listening) :
      Step C tlds s { s with coll := CollectorPc.stopped }
  | collDone (s : State) (hm : s.main ≠ MainPc.done) (hc : s.coll = CollectorPc.stopped)
      (hwg : 0 < s.wg) :
      Step C tlds s { s with coll := CollectorPc.exited, wg := s.wg - 1 }

/-- The invariant of the run: the accounting of `sem` and of the wait group, the
workers spawned so far, the rows written, and what each worker carries. -/
structure Inv (C : Nat) (tlds : List GoString) (s : State) : Prop where
  sem_eq : s.sem = running s + s.main.pending
  sem_le : s.sem ≤ C
  spawned : s.workers.map Worker.tld = tlds.take (s.main.dispatched tlds.length)
  disp_le : s.main.dispatched tlds.length ≤ tlds.length
  wg_eq : s.wg = s.workers.countP (fun w => w.pc.undone) + s.coll.wgShare
  file_eq : s.file ++ s.coll.holding.map row = header ++ s.received.map row
  item_tld : ∀ w ∈ s.workers, ∀ it, w.pc = WorkerPc.send it → it.tld = w.tld
  releases_eq : ∀ w ∈ s.workers, w.releases = if w.pc = WorkerPc.finished then 1 else 0
  delivered : (s.received.map item.tld).Perm (deliveredTlds s.workers)
  done_wg : s.main = MainPc.done → s.wg = 0

/-- A network on which `net.Dial` fails. -/
def unreachableNet : Network :=
  { dialErr := some 0, respond := fun _ => { lines := [], err := none } }

/-- A network on which the server answers every request with a record naming a
whois server. -/
def answeringNet : Network :=
  { dialErr := none,
    respond := fun _ =>
      { lines := [lit "% IANA WHOIS server", lit "domain:       COM",
                  lit "whois:        whois.verisign-grs.com"],
        err := none } }

/-- A state of the run for `com`, `net`: the worker for `com` started and the
slot for `net` acquired. -/
def slotHeldState : State :=
  { main := MainPc.spawn 1, coll := CollectorPc.listening,
    workers := [⟨lit "com", WorkerPc.query, 0⟩], sem := 2, wg := 2, file := header,
    received := [] }

/-- A state of the run for `com`, `net`: the outcome for `net` received and
written, then the one for `com`, then the collector's timeout. -/
def stoppedState : State :=
  { main := MainPc.loop 2, coll := CollectorPc.stopped,
    workers := [⟨lit "com", WorkerPc.deferred, 0⟩, ⟨lit "net", WorkerPc.deferred, 0⟩],
    sem := 2, wg := 3,
    file := [lit "|TLD|WHOIS SERVER|\n", lit "|---|---|\n",
             lit "|net|whois.verisign-grs.com|\n", lit "|com|whois.verisign-grs.com|\n"],
    received := [⟨lit "net", lit "whois.verisign-grs.com"⟩,
                 ⟨lit "com", lit "whois.verisign-grs.com"⟩] }

/-- The last state of a complete run for `com`, `net` in which the outcome for
`net` arrives first. -/
def completeTwoState : State :=
  { main := MainPc.done, coll := CollectorPc.exited,
    workers := [⟨lit "com", WorkerPc.finished, 1⟩, ⟨lit "net", WorkerPc.finished, 1⟩],
    sem := 0, wg := 0,
    file := [lit "|TLD|WHOIS SERVER|\n", lit "|---|---|\n",
             lit "|net|whois.verisign-grs.com|\n", lit "|com|whois.verisign-grs.com|\n"],
    received := [⟨lit "net", lit "whois.verisign-grs.com"⟩,
                 ⟨lit "com", lit "whois.verisign-grs.com"⟩] }

/-- The last state of a complete run for `com`. -/
def completeState : State :=
  { main := MainPc.done, coll := CollectorPc.exited,
    workers := [⟨lit "com", WorkerPc.finished, 1⟩], sem := 0, wg := 0,
    file := header ++ [lit "|com|whois.verisign-grs.com|\n"],
    received := [⟨lit "com", lit "whois.verisign-grs.com"⟩] }

/-- A worker for `t` that has just been started. -/
def queryWorker (t : GoString) : Worker :=
  { tld := t, pc := WorkerPc.query, releases := 0 }

/-- A worker for `t` whose query has failed and that stands at its send of
`item{t, ""}`. -/
def blockedWorker (t : GoString) : Worker :=
  { tld := t, pc := WorkerPc.send { tld := t, server := [] }, releases := 0 }

/-- The state with the first `n` workers spawned and still in their query, the
collector listening. -/
def dispatchedState (tlds : List GoString) (n : Nat) : State :=
  { main := MainPc.loop n, coll := CollectorPc.listening,
    workers := (tlds.take n).map queryWorker, sem := n, wg := n + 1, file := header,
    received := [] }

/-- The state with the first `n` workers spawned and waiting at their send, the
collector ended by its timeout before any of them was ready. -/
def blockedState (tlds : List GoString) (n : Nat) : State :=
  { main := MainPc.loop n, coll := CollectorPc.exited,
    workers := (tlds.take n).map blockedWorker, sem := n, wg := n, file := header,
    received := [] }

/-- A state of the run for `a`, `a`, `b` with the dispatch loop at its end. -/
def threeSpawnedState : State :=
  { main := MainPc.loop 3, coll := CollectorPc.listening,
    workers := [queryWorker (lit "a"), queryWorker (lit "a"), queryWorker (lit "b")],
    sem := 3, wg := 4, file := header, received := [] }

/-! ## Strings: lemmas -/

theorem decodeRune_size_pos (b : Nat) (t : GoString) : 1 ≤ (decodeRune (b :: t)).2 := by
  unfold decodeRune
  simp only
  split_ifs <;> (try split) <;> (try split_ifs) <;> simp

theorem decodeRune_ascii (b : Nat) (t : GoString) (h : b < 0x80) :
    decodeRune (b :: t) = (b, 1) := by
  simp [decodeRune, h]

theorem rangeLoop_ascii (n b : Nat) (t : GoString) (h : b < 0x80) :
    rangeLoop (n + 1) (b :: t) = (b, [b]) :: rangeLoop n t := by
  simp [rangeLoop, decodeRune_ascii b t h]

theorem runes_cons_ascii (b : Nat) (t : GoString) (h : b < 0x80) :
    runes (b :: t) = (b, [b]) :: runes t := by
  simp [runes, rangeLoop_ascii _ b t h]

theorem runes_ascii (s : GoString) (h : ∀ b ∈ s, b < 0x80) :
    runes s = s.map (fun b => (b, [b])) := by
  induction s with
  | nil => rfl
  | cons b t ih =>
    rw [runes_cons_ascii b t (h b (List.mem_cons_self _ _)),
      ih (fun c hc => h c (List.mem_cons_of_mem _ hc))]
    rfl

theorem rangeLoop_chunk_ne_nil (n : Nat) (s : GoString) :
    ∀ p ∈ rangeLoop n s, p.2 ≠ [] := by
  induction n generalizing s with
  | zero => simp [rangeLoop]
  | succ n ih =>
    cases s with
    | nil => simp [rangeLoop]
    | cons b t =>
      intro p hp
      simp only [rangeLoop, List.mem_cons] at hp
      rcases hp with rfl | hp
      · have := decodeRune_size_pos b t
        obtain ⟨k, hk⟩ : ∃ k, (decodeRune (b :: t)).2 = k + 1 := ⟨_, (Nat.sub_add_cancel this).symm⟩
        simp [hk]
      · exact ih _ p hp

theorem rangeLoop_flatten (n : Nat) (s : GoString) (h : s.length ≤ n) :
    ((rangeLoop n s).map Prod.snd).flatten = s := by
  induction n generalizing s with
  | zero =>
    have : s = [] := List.length_eq_zero.mp (Nat.le_zero.mp h)
    subst this; rfl
  | succ n ih =>
    cases s with
    | nil => rfl
    | cons b t =>
      have hpos := decodeRune_size_pos b t
      simp only [rangeLoop, List.map_cons, List.flatten_cons]
      rw [ih]
      · exact List.take_append_drop _ _
      · simp only [List.length_drop, List.length_cons] at h ⊢
        omega

theorem runes_flatten (s : GoString) : ((runes s).map Prod.snd).flatten = s :=
  rangeLoop_flatten _ s (Nat.le_refl _)

theorem fieldsLoop_some_ne_nil (f : Nat → Bool) (rs : List (Nat × GoString)) (cur : GoString) :
    fieldsLoop f rs (some cur) ≠ [] := by
  induction rs generalizing cur with
  | nil => simp [fieldsLoop]
  | cons p rest ih =>
    obtain ⟨r, bs⟩ := p
    simp only [fieldsLoop]
    split_ifs
    · simp
    · exact ih _

theorem fieldsLoop_field_ne_nil (f : Nat → Bool) (rs : List (Nat × GoString))
    (hrs : ∀ p ∈ rs, p.2 ≠ []) (cur : Option GoString) (hcur : ∀ c, cur = some c → c ≠ []) :
    ∀ x ∈ fieldsLoop f rs cur, x ≠ [] := by
  induction rs generalizing cur with
  | nil =>
    cases cur with
    | none => simp [fieldsLoop]
    | some c =>
      intro x hx
      simp only [fieldsLoop, List.mem_singleton] at hx
      subst hx
      exact hcur _ rfl
  | cons p rest ih =>
    obtain ⟨r, bs⟩ := p
    have hbs : bs ≠ [] := hrs (r, bs) (List.mem_cons_self _ _)
    have hrest : ∀ p ∈ rest, p.2 ≠ [] := fun p hp => hrs p (List.mem_cons_of_mem _ hp)
    cases cur with
    | none =>
      simp only [fieldsLoop]
      split_ifs
      · exact ih hrest none (by simp)
      · exact ih hrest (some bs) (by simpa using hbs)
    | some c =>
      have hc : c ≠ [] := hcur _ rfl
      simp only [fieldsLoop]
      split_ifs
      · intro x hx
        rcases List.mem_cons.mp hx with rfl | hx
        · exact hc
        · exact ih hrest none (by simp) x hx
      · exact ih hrest (some (c ++ bs)) (by simp [hc])

theorem fieldsLoop_congr (f g : Nat → Bool) (rs : List (Nat × GoString))
    (h : ∀ p ∈ rs, f p.1 = g p.1) (cur : Option GoString) :
    fieldsLoop f rs cur = fieldsLoop g rs cur := by
  induction rs generalizing cur with
  | nil => cases cur <;> rfl
  | cons p rest ih =>
    obtain ⟨r, bs⟩ := p
    have hr : f r = g r := h (r, bs) (List.mem_cons_self _ _)
    have hrest : ∀ p ∈ rest, f p.1 = g p.1 := fun p hp => h p (List.mem_cons_of_mem _ hp)
    cases cur <;> simp only [fieldsLoop, hr, ih hrest]

theorem asciiSpace_eq_IsSpace (b : Nat) (h : b < 0x80) : asciiSpace b = IsSpace b := by
  have key : ∀ n : Fin 0x80, asciiSpace n.val = IsSpace n.val := by decide
  exact key ⟨b, h⟩

/-- The ASCII fast path of `strings.Fields` computes the same fields as
`FieldsFunc(s, unicode.IsSpace)`. -/
theorem Fields_eq_FieldsFunc (s : GoString) : Fields s = FieldsFunc s IsSpace := by
  unfold Fields
  split_ifs with h
  · have hs : ∀ b ∈ s, b < 0x80 := by simpa using h
    unfold FieldsFunc
    rw [runes_ascii s hs]
    apply fieldsLoop_congr
    intro p hp
    obtain ⟨b, hb, rfl⟩ := List.mem_map.mp hp
    exact asciiSpace_eq_IsSpace b (hs b hb)
  · rfl

theorem Fields_field_ne_nil (s : GoString) : ∀ x ∈ Fields s, x ≠ [] := by
  rw [Fields_eq_FieldsFunc]
  exact fieldsLoop_field_ne_nil _ _ (rangeLoop_chunk_ne_nil _ _) none (by simp)

theorem HasPrefix_iff (s pre : GoString) : HasPrefix s pre = true ↔ ∃ t, s = pre ++ t := by
  unfold HasPrefix
  simp only [Bool.and_eq_true, decide_eq_true_eq, beq_iff_eq]
  constructor
  · rintro ⟨_, h⟩
    have key := List.take_append_drop pre.length s
    rw [h] at key
    exact ⟨s.drop pre.length, key.symm⟩
  · rintro ⟨t, rfl⟩
    simp

theorem Fields_ne_nil_of_whois (line : GoString) (h : HasPrefix line whoisPrefix = true) :
    Fields line ≠ [] := by
  obtain ⟨t, rfl⟩ := (HasPrefix_iff _ _).mp h
  rw [Fields_eq_FieldsFunc]
  have : whoisPrefix ++ t = 0x77 :: (lit "hois:" ++ t) := by
    simp [whoisPrefix, lit]
  rw [this]
  unfold FieldsFunc
  rw [runes_cons_ascii _ _ (by decide)]
  simp only [fieldsLoop]
  rw [if_neg (by decide)]
  exact fieldsLoop_some_ne_nil _ _ _

theorem fieldsLoop_no_space (f : Nat → Bool) (rs : List (Nat × GoString))
    (h : ∀ p ∈ rs, f p.1 = false) (cur : GoString) :
    fieldsLoop f rs (some cur) = [cur ++ (rs.map Prod.snd).flatten] := by
  induction rs generalizing cur with
  | nil => simp [fieldsLoop]
  | cons p rest ih =>
    obtain ⟨r, bs⟩ := p
    have hr : f r = false := h (r, bs) (List.mem_cons_self _ _)
    simp only [fieldsLoop, hr, Bool.false_eq_true, if_false]
    rw [ih (fun p hp => h p (List.mem_cons_of_mem _ hp))]
    simp

theorem FieldsFunc_token (V : GoString) (hne : V ≠ []) (hws : whitespaceFree V = true) :
    FieldsFunc V IsSpace = [V] := by
  unfold FieldsFunc
  have hall : ∀ p ∈ runes V, IsSpace p.1 = false := by
    intro p hp
    have := List.all_eq_true.mp hws p hp
    simpa using this
  have hfl := runes_flatten V
  cases hr : runes V with
  | nil => rw [hr] at hfl; simp at hfl; exact absurd hfl hne
  | cons p rest =>
    obtain ⟨r, bs⟩ := p
    rw [hr] at hall hfl
    have hr0 : IsSpace r = false := hall (r, bs) (List.mem_cons_self _ _)
    simp only [fieldsLoop, hr0, Bool.false_eq_true, if_false]
    rw [fieldsLoop_no_space _ _ (fun p hp => hall p (List.mem_cons_of_mem _ hp))]
    simpa using hfl

theorem runes_append_ascii (a s : GoString) (h : ∀ b ∈ a, b < 0x80) :
    runes (a ++ s) = a.map (fun b => (b, [b])) ++ runes s := by
  induction a with
  | nil => rfl
  | cons b t ih =>
    rw [List.cons_append, runes_cons_ascii _ _ (h b (List.mem_cons_self _ _)),
      ih (fun c hc => h c (List.mem_cons_of_mem _ hc))]
    rfl

theorem Fields_whois_value (V : GoString) (hne : V ≠ []) (hws : whitespaceFree V = true) :
    Fields (lit "whois: " ++ V) = [lit "whois:", V] := by
  rw [Fields_eq_FieldsFunc]
  have hV := FieldsFunc_token V hne hws
  unfold FieldsFunc at hV ⊢
  rw [runes_append_ascii _ _ (by decide)]
  simp [lit, fieldsLoop, IsSpace, inRange] 
  simpa [IsSpace, inRange] using hV

/-! ## `search`, `queryWhoisServer` and `getAllTlds` -/

theorem getLast?_eq_getElem? (l : List GoString) : l[l.length - 1]? = l.getLast? := by
  rw [List.getLast?_eq_getElem?]

theorem searchLoop_skip (pre rest : List GoString) (e : Option Nat)
    (hpre : ∀ l ∈ pre, HasPrefix l whoisPrefix = false) :
    searchLoop (pre ++ rest) e = searchLoop rest e := by
  induction pre with
  | nil => rfl
  | cons l t ih =>
    simp only [List.cons_append, searchLoop, hpre l (List.mem_cons_self _ _),
      Bool.false_eq_true, if_false]
    exact ih (fun x hx => hpre x (List.mem_cons_of_mem _ hx))

theorem searchLoop_match (line : GoString) (rest : List GoString) (e : Option Nat)
    (hline : HasPrefix line whoisPrefix = true) :
    ∃ server, (Fields line).getLast? = some server ∧ server ≠ [] ∧
      searchLoop (line :: rest) e = some (server, none) := by
  have hne := Fields_ne_nil_of_whois line hline
  obtain ⟨server, hs⟩ : ∃ server, (Fields line).getLast? = some server := by
    cases h : (Fields line).getLast? with
    | none => exact absurd (List.getLast?_eq_none_iff.mp h) hne
    | some x => exact ⟨x, rfl⟩
  refine ⟨server, hs, Fields_field_ne_nil line server (List.mem_of_getLast?_eq_some hs), ?_⟩
  simp only [searchLoop, hline, if_true, getLast?_eq_getElem?, hs]

theorem searchLoop_no_match (lines : List GoString) (e : Option Nat)
    (h : ∀ l ∈ lines, HasPrefix l whoisPrefix = false) :
    searchLoop lines e = searchLoop [] e := by
  have := searchLoop_skip lines [] e h
  simpa using this

theorem exists_first_match (lines : List GoString)
    (h : ¬ ∀ l ∈ lines, HasPrefix l whoisPrefix = false) :
    ∃ pre line post, lines = pre ++ line :: post ∧
      (∀ l ∈ pre, HasPrefix l whoisPrefix = false) ∧ HasPrefix line whoisPrefix = true := by
  induction lines with
  | nil => simp at h
  | cons l t ih =>
    by_cases hl : HasPrefix l whoisPrefix = true
    · exact ⟨[], l, t, rfl, by simp, hl⟩
    · have hl' : HasPrefix l whoisPrefix = false := by simpa using hl
      have ht : ¬ ∀ x ∈ t, HasPrefix x whoisPrefix = false := by
        intro hall
        apply h
        intro x hx
        rcases List.mem_cons.mp hx with rfl | hx
        · exact hl'
        · exact hall x hx
      obtain ⟨pre, line, post, rfl, hpre, hline⟩ := ih ht
      refine ⟨l :: pre, line, post, rfl, ?_, hline⟩
      intro x hx
      rcases List.mem_cons.mp hx with rfl | hx
      · exact hl'
      · exact hpre x hx

/-- The function `search` never panics, and the server it returns is empty exactly
when the error it returns is not nil. -/
theorem search_total (r : Reader) :
    ∃ server err, search r = some (server, err) ∧ (err ≠ none ↔ server = []) := by
  unfold search
  by_cases h : ∀ l ∈ r.lines, HasPrefix l whoisPrefix = false
  · rw [searchLoop_no_match _ _ h]
    cases r.err with
    | none => exact ⟨[], some GoError.NoServerFound, rfl, by simp⟩
    | some e => exact ⟨[], some (GoError.external e), rfl, by simp⟩
  · obtain ⟨pre, line, post, hl, hpre, hline⟩ := exists_first_match _ h
    rw [hl, searchLoop_skip _ _ _ hpre]
    obtain ⟨server, _, hne, hs⟩ := searchLoop_match line post r.err hline
    exact ⟨server, none, hs, by simp [hne]⟩

/-- C1: when the lines the scanner yields contain a line beginning with `whois:`,
`search` does not panic (the index `len(ts)-1` is in range), returns a nil error
and the last field of the first such line, whatever comes after that line; for a
first matching line `whois: VALUE` with `VALUE` a non-empty token without white
space, it returns `VALUE`. -/
theorem search_first_match (pre post : List GoString) (line : GoString) (e : Option Nat)
    (hpre : ∀ l ∈ pre, HasPrefix l whoisPrefix = false)
    (hline : HasPrefix line whoisPrefix = true) :
    (∃ server, (Fields line).getLast? = some server ∧
      search ⟨pre ++ line :: post, e⟩ = some (server, none)) ∧
    search ⟨pre ++ line :: post, e⟩ = search ⟨[line], none⟩ ∧
    (∀ V : GoString, V ≠ [] → whitespaceFree V = true → line = lit "whois: " ++ V →
      search ⟨pre ++ line :: post, e⟩ = some (V, none)) := by
  obtain ⟨server, hs, _, hsearch⟩ := searchLoop_match line post e hline
  obtain ⟨server', hs', _, hsearch'⟩ := searchLoop_match line [] none hline
  have hsame : server' = server := Option.some.inj (hs'.symm.trans hs)
  have hres : search ⟨pre ++ line :: post, e⟩ = some (server, none) := by
    unfold search
    rw [searchLoop_skip _ _ _ hpre]
    exact hsearch
  refine ⟨⟨server, hs, hres⟩, ?_, ?_⟩
  · rw [hres]
    unfold search
    simp only [hsearch', hsame]
  · intro V hne hws hV
    rw [hres]
    rw [hV, Fields_whois_value V hne hws] at hs
    simp at hs
    rw [hs]

/-- Witness of `search_first_match`: a response with two matching lines. -/
theorem search_first_match_witness :
    search ⟨[lit "% IANA WHOIS server", lit "whois: whois.nic.example", lit "whois: other"],
      none⟩ = some (lit "whois.nic.example", none) :=
  (search_first_match [lit "% IANA WHOIS server"] [lit "whois: other"]
    (lit "whois: whois.nic.example") none (by decide) (by decide)).2.2
    (lit "whois.nic.example") (by decide) (by decide) (by decide)

/-- C2: `search` returns the error `NoServerFound` exactly when the scanner ends
without an error and no line begins with `whois:` (the empty stream included);
when the scanner ends with a read error and no line matched, `search` returns
that error, which is not `NoServerFound`. -/
theorem search_not_found_iff (r : Reader) :
    ((∃ server, search r = some (server, some GoError.NoServerFound)) ↔
      (r.err = none ∧ ∀ l ∈ r.lines, HasPrefix l whoisPrefix = false)) ∧
    (∀ e, r.err = some e → (∀ l ∈ r.lines, HasPrefix l whoisPrefix = false) →
      search r = some ([], some (GoError.external e)) ∧
        GoError.external e ≠ GoError.NoServerFound) := by
  constructor
  · constructor
    · rintro ⟨server, hs⟩
      by_cases h : ∀ l ∈ r.lines, HasPrefix l whoisPrefix = false
      · refine ⟨?_, h⟩
        unfold search at hs
        rw [searchLoop_no_match _ _ h] at hs
        cases he : r.err with
        | none => rfl
        | some e => rw [he] at hs; simp [searchLoop] at hs
      · exfalso
        obtain ⟨pre, line, post, hl, hpre, hline⟩ := exists_first_match _ h
        obtain ⟨s, _, _, hsl⟩ := searchLoop_match line post r.err hline
        unfold search at hs
        rw [hl, searchLoop_skip _ _ _ hpre, hsl] at hs
        simp at hs
    · rintro ⟨he, h⟩
      refine ⟨[], ?_⟩
      unfold search
      rw [searchLoop_no_match _ _ h, he]
      rfl
  · intro e he h
    refine ⟨?_, by simp⟩
    unfold search
    rw [searchLoop_no_match _ _ h, he]
    rfl

/-- C3 (what the code does): a response whose only matching line is the prefix
alone, or the prefix followed by white space only, makes `search` return the
prefix token `whois:` itself as the server, with a nil error. -/
theorem search_prefix_only :
    search ⟨[lit "whois:"], none⟩ = some (lit "whois:", none) ∧
    search ⟨[lit "domain:       EXAMPLE", lit "whois:   "], none⟩ = some (lit "whois:", none) := by
  constructor <;> decide

/-- C4: `queryWhoisServer` (and `search`) never panics, and the server it returns
is empty exactly when the error it returns is not nil; so the item a worker
sends has an empty server exactly when the worker logged an error. -/
theorem server_empty_iff_error (net : Network) (tld : GoString) :
    (∀ r : Reader, ∃ server err, search r = some (server, err) ∧
      (err ≠ none ↔ server = [])) ∧
    ∃ server err log, queryWhoisServer net tld = some (server, err) ∧
      (err ≠ none ↔ server = []) ∧
      workerBody net tld = some (log, ⟨tld, server⟩) ∧
      (log ≠ [] ↔ err ≠ none) ∧ (server = [] ↔ log ≠ []) := by
  refine ⟨search_total, ?_⟩
  have hq : ∃ server err, queryWhoisServer net tld = some (server, err) ∧
      (err ≠ none ↔ server = []) := by
    unfold queryWhoisServer
    cases net.dialErr with
    | some e => exact ⟨[], some (GoError.external e), rfl, by simp⟩
    | none => exact search_total _
  obtain ⟨server, err, hq, hiff⟩ := hq
  cases err with
  | none =>
    refine ⟨server, none, [], hq, hiff, by simp [workerBody, hq], by simp, ?_⟩
    simpa using hiff
  | some e =>
    refine ⟨server, some e, [⟨tld, e⟩], hq, hiff, by simp [workerBody, hq], by simp, ?_⟩
    simpa using hiff

theorem getAllTldsLoop_eq (lines tlds : List GoString) :
    getAllTldsLoop lines tlds =
      tlds ++ lines.filter (fun l => !HasPrefix l (lit "#") && decide (l ≠ [])) := by
  induction lines generalizing tlds with
  | nil => simp [getAllTldsLoop]
  | cons l t ih =>
    by_cases h1 : HasPrefix l (lit "#") = true
    · simp [getAllTldsLoop, h1, ih]
    · by_cases h2 : l = []
      · subst h2
        simp [getAllTldsLoop, h1, ih]
      · have : 0 < l.length := List.length_pos.mpr h2
        simp [getAllTldsLoop, h1, h2, this, ih]

/-- C5: for a feed body read without error, `getAllTlds` returns, with a nil
error, the lines that are non-empty and do not begin with `#`, in feed order and
with duplicates kept: the feed's lines filtered by that test, nothing else
dropped or altered. A line begins with `#` when its first byte is 0x23. -/
theorem getAllTlds_filter (lines : List GoString) :
    getAllTlds (HttpGet.body ⟨lines, none⟩) =
      (lines.filter (fun l => !HasPrefix l (lit "#") && decide (l ≠ [])), none) ∧
    (∀ l : GoString, HasPrefix l (lit "#") = true ↔ l.head? = some 0x23) := by
  constructor
  · simp [getAllTlds, getAllTldsLoop_eq]
  · intro l
    cases l with
    | nil => simp [HasPrefix, lit]
    | cons b t => simp [HasPrefix, lit]

/-! ## The run: steps and invariants -/

theorem getElem?_split (ws : List Worker) (k : Nat) (w : Worker) (h : ws[k]? = some w) :
    ∃ front back, ws = front ++ w :: back ∧ front.length = k ∧
      ∀ w', ws.set k w' = front ++ w' :: back := by
  induction ws generalizing k with
  | nil => simp at h
  | cons a t ih =>
    cases k with
    | zero =>
      simp at h
      subst h
      exact ⟨[], t, rfl, rfl, fun _ => rfl⟩
    | succ k =>
      simp at h
      obtain ⟨front, back, rfl, hlen, hset⟩ := ih k h
      refine ⟨a :: front, back, rfl, by simp [hlen], ?_⟩
      intro w'
      simp [List.set, hset]

/-- Every step taken by `exec` is a step of the relation `Step`. -/
theorem Step_of_exec (C : Nat) (tlds : List GoString) (s s' : State) (a : Action)
    (h : exec C tlds s a = some s') : Step C tlds s s' := by
  unfold exec at h
  split at h
  · simp at h
  · rename_i hm
    cases a with
    | acquire =>
      simp only [execMain] at h
      split at h
      · rename_i i hi
        split at h
        · rename_i hc
          cases h
          exact Step.acquire s i hi hc.1 hc.2
        · simp at h
      · simp at h
    | spawn =>
      simp only [execMain] at h
      split at h
      · rename_i i hi
        split at h
        · rename_i tld ht
          cases h
          exact Step.spawn s i tld hi ht
        · simp at h
      · simp at h
    | finish =>
      simp only [execMain] at h
      split at h
      · rename_i i hi
        split at h
        · rename_i hc
          cases h
          exact Step.finish s i hi hc.1 hc.2
        · simp at h
      · simp at h
    | write =>
      simp only [execCollector] at h
      split at h
      · rename_i it hc
        cases h
        exact Step.write s it hm hc
      · simp at h
    | timeout =>
      simp only [execCollector] at h
      split at h
      · rename_i hc
        cases h
        exact Step.timeout s hm hc
      · simp at h
    | collDone =>
      simp only [execCollector] at h
      split at h
      · rename_i hc
        split at h
        · rename_i hwg
          cases h
          exact Step.collDone s hm hc hwg
        · simp at h
      · simp at h
    | query k net =>
      simp only at h
      split at h
      · rename_i w hk
        obtain ⟨front, back, hw, _, hset⟩ := getElem?_split _ _ _ hk
        simp only [execWorker] at h
        split at h
        · rename_i hpc
          split at h
          · rename_i log it hq
            cases h
            rw [hset]
            exact Step.query s front back w net log it hm hw hpc hq
          · simp at h
        · simp at h
      · simp at h
    | deliver k =>
      simp only at h
      split at h
      · rename_i w hk
        obtain ⟨front, back, hw, _, hset⟩ := getElem?_split _ _ _ hk
        simp only [execWorker] at h
        split at h
        · rename_i it hpc hc
          cases h
          rw [hset]
          exact Step.deliver s front back w it hm hw hpc hc
        · simp at h
      · simp at h
    | wgDone k =>
      simp only at h
      split at h
      · rename_i w hk
        obtain ⟨front, back, hw, _, hset⟩ := getElem?_split _ _ _ hk
        simp only [execWorker] at h
        split at h
        · rename_i hpc
          split at h
          · rename_i hwg
            cases h
            rw [hset]
            exact Step.wgDone s front back w hm hw hpc hwg
          · simp at h
        · simp at h
      · simp at h
    | release k =>
      simp only at h
      split at h
      · rename_i w hk
        obtain ⟨front, back, hw, _, hset⟩ := getElem?_split _ _ _ hk
        simp only [execWorker] at h
        split at h
        · rename_i hpc
          split at h
          · rename_i hsem
            cases h
            rw [hset]
            exact Step.release s front back w hm hw hpc hsem
          · simp at h
        · simp at h
      · simp at h

@[simp] theorem active_query : WorkerPc.query.active = true := rfl
@[simp] theorem active_send (it : item) : (WorkerPc.send it).active = true := rfl
@[simp] theorem active_deferred : WorkerPc.deferred.active = true := rfl
@[simp] theorem active_release : WorkerPc.release.active = true := rfl
@[simp] theorem active_finished : WorkerPc.finished.active = false := rfl
@[simp] theorem undone_query : WorkerPc.query.undone = true := rfl
@[simp] theorem undone_send (it : item) : (WorkerPc.send it).undone = true := rfl
@[simp] theorem undone_deferred : WorkerPc.deferred.undone = true := rfl
@[simp] theorem undone_release : WorkerPc.release.undone = false := rfl
@[simp] theorem undone_finished : WorkerPc.finished.undone = false := rfl
@[simp] theorem delivered_query : WorkerPc.query.delivered = false := rfl
@[simp] theorem delivered_send (it : item) : (WorkerPc.send it).delivered = false := rfl
@[simp] theorem delivered_deferred : WorkerPc.deferred.delivered = true := rfl
@[simp] theorem delivered_release : WorkerPc.release.delivered = true := rfl
@[simp] theorem delivered_finished : WorkerPc.finished.delivered = true := rfl
@[simp] theorem pending_loop (i : Nat) : (MainPc.loop i).pending = 0 := rfl
@[simp] theorem pending_spawn (i : Nat) : (MainPc.spawn i).pending = 1 := rfl
@[simp] theorem pending_done : MainPc.done.pending = 0 := rfl
@[simp] theorem dispatched_loop (n i : Nat) : (MainPc.loop i).dispatched n = i := rfl
@[simp] theorem dispatched_spawn (n i : Nat) : (MainPc.spawn i).dispatched n = i := rfl
@[simp] theorem dispatched_done (n : Nat) : MainPc.done.dispatched n = n := rfl
@[simp] theorem wgShare_listening : CollectorPc.listening.wgShare = 1 := rfl
@[simp] theorem wgShare_writing (it : item) : (CollectorPc.writing it).wgShare = 1 := rfl
@[simp] theorem wgShare_stopped : CollectorPc.stopped.wgShare = 1 := rfl
@[simp] theorem wgShare_exited : CollectorPc.exited.wgShare = 0 := rfl
@[simp] theorem holding_listening : CollectorPc.listening.holding = [] := rfl
@[simp] theorem holding_writing (it : item) : (CollectorPc.writing it).holding = [it] := rfl
@[simp] theorem holding_stopped : CollectorPc.stopped.holding = [] := rfl
@[simp] theorem holding_exited : CollectorPc.exited.holding = [] := rfl
@[simp] theorem isStopped_listening : CollectorPc.listening.isStopped = false := rfl
@[simp] theorem isStopped_writing (it : item) : (CollectorPc.writing it).isStopped = false := rfl
@[simp] theorem isStopped_stopped : CollectorPc.stopped.isStopped = true := rfl
@[simp] theorem isStopped_exited : CollectorPc.exited.isStopped = true := rfl

theorem deliveredTlds_append (a b : List Worker) :
    deliveredTlds (a ++ b) = deliveredTlds a ++ deliveredTlds b := by
  simp [deliveredTlds, List.filterMap_append]

theorem deliveredTlds_cons (w : Worker) (t : List Worker) :
    deliveredTlds (w :: t) = (if w.pc.delivered then [w.tld] else []) ++ deliveredTlds t := by
  unfold deliveredTlds
  by_cases h : w.pc.delivered = true <;> simp [List.filterMap_cons, h]

theorem deliveredTlds_nil : deliveredTlds [] = [] := rfl

theorem Inv_init (C : Nat) (tlds : List GoString) : Inv C tlds init := by
  constructor <;> simp [init, running, deliveredTlds]

theorem workerBody_tld (net : Network) (tld : GoString) (log : List LogEntry) (it : item)
    (h : workerBody net tld = some (log, it)) : it.tld = tld := by
  unfold workerBody at h
  split at h
  · simp at h
  · simp at h; rw [← h.2]
  · simp at h; rw [← h.2]

theorem Inv_step (C : Nat) (tlds : List GoString) (s s' : State) (h : Inv C tlds s)
    (hs : Step C tlds s s') : Inv C tlds s' := by
  obtain ⟨h1, h2, h3, h4, h5, h6, h7, h8, h9, h10⟩ := h
  obtain ⟨main, coll, workers, sem, wg, file, received⟩ := s
  cases hs with
  | acquire i hm hi hsem =>
    simp only at hm hi hsem
    subst hm
    simp only [running, pending_loop, dispatched_loop, Nat.add_zero] at *
    exact ⟨by simp [running, h1], by simp only; omega, h3, h4, h5, h6, h7, h8, h9, by simp⟩
  | spawn i tld hm ht =>
    simp only at hm ht
    subst hm
    simp only [running, pending_spawn, dispatched_spawn] at *
    have hi : i < tlds.length := (List.getElem?_eq_some.mp ht).1
    refine ⟨?_, by simp only; omega, ?_, by simp only [dispatched_loop]; omega, ?_, h6, ?_, ?_, ?_,
      by simp⟩
    · simp [running, List.countP_append, h1]
    · simp [List.take_succ, h3, ht]
    · simp [List.countP_append, h5]; omega
    · intro w hw it hpc
      rcases List.mem_append.mp hw with hw | hw
      · exact h7 w hw it hpc
      · simp at hw; subst hw; simp at hpc
    · intro w hw
      rcases List.mem_append.mp hw with hw | hw
      · exact h8 w hw
      · simp at hw; subst hw; simp
    · simpa [deliveredTlds_append, deliveredTlds_cons, deliveredTlds_nil] using h9
  | finish i hm hi hwg =>
    simp only at hm hi hwg
    subst hm
    simp only [running, pending_loop, dispatched_loop, Nat.add_zero] at *
    refine ⟨by simp [running, h1], h2, ?_, by simp, h5, h6, h7, h8, h9, fun _ => hwg⟩
    simp only [dispatched_done]
    rw [h3, List.take_of_length_le hi, List.take_of_length_le (Nat.le_refl _)]
  | query front back w net log it hm hw hpc hq =>
    obtain ⟨tld, pc, rel⟩ := w
    simp only at hm hw hpc hq
    subst hw hpc
    simp only [running, List.countP_append, List.countP_cons, List.map_append, List.map_cons,
      active_query, undone_query, if_true] at *
    refine ⟨by simp [running, List.countP_append, List.countP_cons, h1], h2,
      by simpa using h3, h4, by simp [List.countP_append, List.countP_cons, h5], h6, ?_, ?_, ?_,
      h10⟩
    · intro w hw it' hpc
      rcases List.mem_append.mp hw with hw | hw
      · exact h7 w (List.mem_append_left _ hw) it' hpc
      · rcases List.mem_cons.mp hw with rfl | hw
        · simp only [WorkerPc.send.injEq] at hpc
          subst hpc
          exact workerBody_tld net tld log it hq
        · exact h7 w (List.mem_append_right _ (List.mem_cons_of_mem _ hw)) it' hpc
    · intro w hw
      rcases List.mem_append.mp hw with hw | hw
      · exact h8 w (List.mem_append_left _ hw)
      · rcases List.mem_cons.mp hw with rfl | hw
        · have := h8 ⟨tld, WorkerPc.query, rel⟩ (by simp)
          simpa using this
        · exact h8 w (List.mem_append_right _ (List.mem_cons_of_mem _ hw))
    · simpa [deliveredTlds_append, deliveredTlds_cons] using h9
  | deliver front back w it hm hw hpc hc =>
    obtain ⟨tld, pc, rel⟩ := w
    simp only at hm hw hpc hc
    subst hw hpc hc
    simp only [running, List.countP_append, List.countP_cons, List.map_append, List.map_cons,
      active_send, undone_send, if_true, holding_listening, List.map_nil, List.append_nil,
      wgShare_listening] at *
    have htld : it.tld = tld := h7 ⟨tld, WorkerPc.send it, rel⟩ (by simp) it rfl
    refine ⟨by simp [running, List.countP_append, List.countP_cons, h1], h2,
      by simpa using h3, h4, by simp [List.countP_append, List.countP_cons, h5],
      by simp [h6], ?_, ?_, ?_, h10⟩
    · intro w hw it' hpc
      rcases List.mem_append.mp hw with hw | hw
      · exact h7 w (List.mem_append_left _ hw) it' hpc
      · rcases List.mem_cons.mp hw with rfl | hw
        · simp at hpc
        · exact h7 w (List.mem_append_right _ (List.mem_cons_of_mem _ hw)) it' hpc
    · intro w hw
      rcases List.mem_append.mp hw with hw | hw
      · exact h8 w (List.mem_append_left _ hw)
      · rcases List.mem_cons.mp hw with rfl | hw
        · have := h8 ⟨tld, WorkerPc.send it, rel⟩ (by simp)
          simpa using this
        · exact h8 w (List.mem_append_right _ (List.mem_cons_of_mem _ hw))
    · simp only [deliveredTlds_append, deliveredTlds_cons, delivered_send, delivered_deferred,
        if_true, Bool.false_eq_true, if_false, List.nil_append, List.map_append, List.map_cons,
        List.map_nil, htld] at h9 ⊢
      refine (h9.append_right [tld]).trans ?_
      rw [List.append_assoc]
      exact List.Perm.append_left _ (List.perm_append_singleton _ _)
  | wgDone front back w hm hw hpc hwg =>
    obtain ⟨tld, pc, rel⟩ := w
    simp only at hm hw hpc hwg
    subst hw hpc
    simp only [running, List.countP_append, List.countP_cons, List.map_append, List.map_cons,
      active_deferred, undone_deferred, if_true] at *
    refine ⟨by simp [running, List.countP_append, List.countP_cons, h1], h2,
      by simpa using h3, h4, by simp [List.countP_append, List.countP_cons, h5]; omega, h6,
      ?_, ?_, ?_, fun hd => absurd hd hm⟩
    · intro w hw it' hpc
      rcases List.mem_append.mp hw with hw | hw
      · exact h7 w (List.mem_append_left _ hw) it' hpc
      · rcases List.mem_cons.mp hw with rfl | hw
        · simp at hpc
        · exact h7 w (List.mem_append_right _ (List.mem_cons_of_mem _ hw)) it' hpc
    · intro w hw
      rcases List.mem_append.mp hw with hw | hw
      · exact h8 w (List.mem_append_left _ hw)
      · rcases List.mem_cons.mp hw with rfl | hw
        · have := h8 ⟨tld, WorkerPc.deferred, rel⟩ (by simp)
          simpa using this
        · exact h8 w (List.mem_append_right _ (List.mem_cons_of_mem _ hw))
    · simpa [deliveredTlds_append, deliveredTlds_cons] using h9
  | release front back w hm hw hpc hsem =>
    obtain ⟨tld, pc, rel⟩ := w
    simp only at hm hw hpc hsem
    subst hw hpc
    simp only [running, List.countP_append, List.countP_cons, List.map_append, List.map_cons,
      active_release, undone_release, if_true] at *
    refine ⟨by simp [running, List.countP_append, List.countP_cons, h1]; omega,
      by simp only; omega,
      by simpa using h3, h4, by simpa [List.countP_append, List.countP_cons] using h5, h6,
      ?_, ?_, ?_, h10⟩
    · intro w hw it' hpc
      rcases List.mem_append.mp hw with hw | hw
      · exact h7 w (List.mem_append_left _ hw) it' hpc
      · rcases List.mem_cons.mp hw with rfl | hw
        · simp at hpc
        · exact h7 w (List.mem_append_right _ (List.mem_cons_of_mem _ hw)) it' hpc
    · intro w hw
      rcases List.mem_append.mp hw with hw | hw
      · exact h8 w (List.mem_append_left _ hw)
      · rcases List.mem_cons.mp hw with rfl | hw
        · have := h8 ⟨tld, WorkerPc.release, rel⟩ (by simp)
          simp at this
          simp [this]
        · exact h8 w (List.mem_append_right _ (List.mem_cons_of_mem _ hw))
    · simpa [deliveredTlds_append, deliveredTlds_cons] using h9
  | write it hm hc =>
    simp only at hm hc
    subst hc
    simp only [holding_writing, wgShare_writing, List.map_cons, List.map_nil] at *
    exact ⟨h1, h2, h3, h4, by simp [h5], by simpa using h6, h7, h8, h9, h10⟩
  | timeout hm hc =>
    simp only at hm hc
    subst hc
    simp only [holding_listening, wgShare_listening, List.map_nil] at *
    exact ⟨h1, h2, h3, h4, by simp [h5], by simpa using h6, h7, h8, h9, h10⟩
  | collDone hm hc hwg =>
    simp only at hm hc hwg
    subst hc
    simp only [holding_stopped, wgShare_stopped, List.map_nil] at *
    exact ⟨h1, h2, h3, h4, by simp [h5], by simpa using h6, h7, h8, h9,
      fun hd => absurd hd hm⟩

theorem Reaches.refl (C : Nat) (tlds : List GoString) (s : State) : Reaches C tlds s s :=
  ⟨[], rfl⟩

theorem run_append (C : Nat) (tlds : List GoString) (s : State) (as bs : List Action) :
    run C tlds s (as ++ bs) = (run C tlds s as).bind (fun t => run C tlds t bs) := by
  induction as generalizing s with
  | nil => rfl
  | cons a rest ih =>
    simp only [List.cons_append, run]
    cases exec C tlds s a with
    | none => rfl
    | some t => exact ih t

theorem Reaches.trans {C : Nat} {tlds : List GoString} {s t u : State}
    (h1 : Reaches C tlds s t) (h2 : Reaches C tlds t u) : Reaches C tlds s u := by
  obtain ⟨as, ha⟩ := h1
  obtain ⟨bs, hb⟩ := h2
  exact ⟨as ++ bs, by rw [run_append, ha]; exact hb⟩

theorem Reaches.single {C : Nat} {tlds : List GoString} {s t : State} (a : Action)
    (h : exec C tlds s a = some t) : Reaches C tlds s t :=
  ⟨[a], by simp [run, h]⟩

/-- A property kept by every step is kept along a run. -/
theorem Reaches.induct {C : Nat} {tlds : List GoString} (P : State → Prop)
    (hstep : ∀ s s', P s → Step C tlds s s' → P s') {s s' : State}
    (h : Reaches C tlds s s') (hs : P s) : P s' := by
  obtain ⟨acts, hr⟩ := h
  revert s
  induction acts with
  | nil =>
    intro s hs hr
    simp only [run, Option.some.injEq] at hr
    exact hr ▸ hs
  | cons a rest ih =>
    intro s hs hr
    simp only [run] at hr
    cases he : exec C tlds s a with
    | none => rw [he] at hr; simp at hr
    | some t =>
      rw [he] at hr
      exact ih (hstep s t hs (Step_of_exec C tlds s t a he)) hr

theorem Inv_reachable {C : Nat} {tlds : List GoString} {s : State}
    (h : Reachable C tlds s) : Inv C tlds s :=
  Reaches.induct (Inv C tlds) (Inv_step C tlds) h (Inv_init C tlds)

theorem Inv.not_done {C : Nat} {tlds : List GoString} {s : State} (h : Inv C tlds s)
    (hwg : 0 < s.wg) : s.main ≠ MainPc.done := by
  intro hd
  have := h.done_wg hd
  omega

theorem getElem?_middle (front back : List Worker) (a : Worker) :
    (front ++ a :: back)[front.length]? = some a := by
  rw [List.getElem?_append_right (Nat.le_refl _)]
  simp

theorem getElem?_replace (front back : List Worker) (a b : Worker) (k : Nat)
    (hk : k ≠ front.length) : (front ++ a :: back)[k]? = (front ++ b :: back)[k]? := by
  rcases Nat.lt_or_gt_of_ne hk with h | h
  · rw [List.getElem?_append_left h, List.getElem?_append_left h]
  · rw [List.getElem?_append_right (Nat.le_of_lt h), List.getElem?_append_right (Nat.le_of_lt h)]
    obtain ⟨m, hm⟩ : ∃ m, k - front.length = m + 1 := ⟨k - front.length - 1, by omega⟩
    rw [hm]
    rfl

/-- Once the collector has left its loop, a step keeps it so, writes no row,
receives no item, and leaves every worker that has not delivered undelivered. -/
theorem stopped_step (C : Nat) (tlds : List GoString) (s s' : State)
    (hc : s.coll.isStopped = true) (hs : Step C tlds s s') :
    s'.coll.isStopped = true ∧ s'.file = s.file ∧ s'.received = s.received ∧
      ∀ k, undeliveredAt s k → undeliveredAt s' k := by
  have keep : ∀ (front back : List Worker) (w w' : Worker),
      (w'.pc.delivered = false ∨ w.pc.delivered = true) →
      ∀ k : Nat, (∃ x : Worker, (front ++ w :: back)[k]? = some x ∧ x.pc.delivered = false) →
        ∃ x : Worker, (front ++ w' :: back)[k]? = some x ∧ x.pc.delivered = false := by
    intro front back w w' hww k ⟨x, hx, hxd⟩
    by_cases hk : k = front.length
    · subst hk
      rw [getElem?_middle] at hx
      cases hx
      rcases hww with h | h
      · exact ⟨w', getElem?_middle _ _ _, h⟩
      · rw [h] at hxd; simp at hxd
    · exact ⟨x, by rw [← getElem?_replace front back w w' k hk]; exact hx, hxd⟩
  obtain ⟨main, coll, workers, sem, wg, file, received⟩ := s
  simp only at hc
  cases hs with
  | acquire i hm hi hsem => exact ⟨hc, rfl, rfl, fun k hk => hk⟩
  | spawn i tld hm ht =>
    refine ⟨hc, rfl, rfl, ?_⟩
    rintro k ⟨x, hx, hxd⟩
    simp only at hx
    refine ⟨x, ?_, hxd⟩
    have hlt : k < workers.length := (List.getElem?_eq_some.mp hx).1
    simp only
    rw [List.getElem?_append_left hlt]
    exact hx
  | finish i hm hi hwg => exact ⟨hc, rfl, rfl, fun k hk => hk⟩
  | query front back w net log it hm hw hpc hq =>
    simp only at hw
    subst hw
    exact ⟨hc, rfl, rfl, keep front back w _ (Or.inl rfl)⟩
  | deliver front back w it hm hw hpc hcl =>
    simp only at hcl
    rw [hcl] at hc
    simp at hc
  | wgDone front back w hm hw hpc hwg =>
    simp only at hw
    subst hw
    exact ⟨hc, rfl, rfl, keep front back w _ (Or.inr (by rw [hpc]; rfl))⟩
  | release front back w hm hw hpc hsem =>
    simp only at hw
    subst hw
    exact ⟨hc, rfl, rfl, keep front back w _ (Or.inr (by rw [hpc]; rfl))⟩
  | write it hm hcl =>
    simp only at hcl
    rw [hcl] at hc
    simp at hc
  | timeout hm hcl =>
    simp only at hcl
    rw [hcl] at hc
    simp at hc
  | collDone hm hcl hwg => exact ⟨rfl, rfl, rfl, fun k hk => hk⟩

theorem stopped_reaches (C : Nat) (tlds : List GoString) (s s' : State)
    (hc : s.coll.isStopped = true) (h : Reaches C tlds s s') :
    s'.coll.isStopped = true ∧ s'.file = s.file ∧ s'.received = s.received ∧
      ∀ k, undeliveredAt s k → undeliveredAt s' k := by
  refine Reaches.induct
    (fun t => t.coll.isStopped = true ∧ t.file = s.file ∧ t.received = s.received ∧
      ∀ k, undeliveredAt s k → undeliveredAt t k) ?_ h ⟨hc, rfl, rfl, fun _ hk => hk⟩
  intro t t' ⟨htc, htf, htr, htu⟩ hstep
  obtain ⟨h1, h2, h3, h4⟩ := stopped_step C tlds t t' htc hstep
  exact ⟨h1, h2.trans htf, h3.trans htr, fun k hk => h4 k (htu k hk)⟩

theorem countP_undone_pos (ws : List Worker) (k : Nat) (w : Worker) (h : ws[k]? = some w)
    (hd : w.pc.delivered = false) : 0 < ws.countP (fun w => w.pc.undone) := by
  apply List.countP_pos_iff.mpr
  refine ⟨w, List.getElem?_mem h, ?_⟩
  cases hpc : w.pc <;> simp [hpc] at hd ⊢

theorem delivered_of_not_undone (pc : WorkerPc) (h : pc.undone = false) :
    pc.delivered = true := by
  cases pc <;> simp at h ⊢

theorem deliveredTlds_all (ws : List Worker) (h : ∀ w ∈ ws, w.pc.delivered = true) :
    deliveredTlds ws = ws.map Worker.tld := by
  induction ws with
  | nil => rfl
  | cons w t ih =>
    rw [deliveredTlds_cons, h w (List.mem_cons_self _ _),
      ih (fun x hx => h x (List.mem_cons_of_mem _ hx))]
    rfl

/-! ## The claims about the run -/

/-- C6: in every reachable state the number of workers started and not yet
finished is at most the capacity `C` of `sem`: it equals the number of values in
`sem`, less the slot `main` holds between its send on `sem` and the `go`
statement. A step that starts a worker finds `main` holding such a slot, and a
step that takes a value out of `sem` is the last step of a worker. -/
theorem running_le_capacity (C : Nat) (tlds : List GoString) (s : State)
    (h : Reachable C tlds s) :
    running s ≤ C ∧ running s + s.main.pending = s.sem ∧ s.sem ≤ C ∧
    ∀ a s', exec C tlds s a = some s' →
      (s.workers.length < s'.workers.length →
        s.main.pending = 1 ∧ s'.main.pending = 0 ∧ running s' = running s + 1 ∧
          s'.sem = s.sem) ∧
      (s'.sem < s.sem → running s' + 1 = running s ∧ s'.sem + 1 = s.sem) := by
  have hinv := Inv_reachable h
  refine ⟨?_, hinv.sem_eq.symm, hinv.sem_le, ?_⟩
  · have h1 := hinv.sem_eq
    have h2 := hinv.sem_le
    omega
  · intro a s' he
    have hstep := Step_of_exec C tlds s s' a he
    obtain ⟨main, coll, workers, sem, wg, file, received⟩ := s
    cases hstep with
    | acquire i hm hi hsem => simp
    | spawn i tld hm ht =>
      simp only at hm
      subst hm
      simp [running, List.countP_append]
    | finish i hm hi hwg => simp
    | query front back w net log it hm hw hpc hq =>
      simp only at hw
      subst hw
      simp
    | deliver front back w it hm hw hpc hc =>
      simp only at hw
      subst hw
      simp
    | wgDone front back w hm hw hpc hwg =>
      simp only at hw
      subst hw
      simp
    | release front back w hm hw hpc hsem =>
      simp only at hw hsem
      subst hw
      simp [running, List.countP_append, List.countP_cons, hpc]
      omega
    | write it hm hc => simp
    | timeout hm hc => simp
    | collDone hm hc hwg => simp

/-- Witness of `running_le_capacity`: two identifiers, the first worker started
and the slot of the second acquired. -/
theorem running_le_capacity_witness :
    Reachable semNum [lit "com", lit "net"] slotHeldState ∧ running slotHeldState ≤ semNum :=
  ⟨⟨[Action.acquire, Action.spawn, Action.acquire], by decide⟩,
    (running_le_capacity semNum [lit "com", lit "net"] slotHeldState
      ⟨[Action.acquire, Action.spawn, Action.acquire], by decide⟩).1⟩

theorem received_of_worker {C : Nat} {tlds : List GoString} {s : State} (h : Inv C tlds s) :
    ∀ it ∈ s.received, ∃ w ∈ s.workers, w.tld = it.tld ∧ w.pc.delivered = true := by
  intro it hit
  have hmem : it.tld ∈ deliveredTlds s.workers :=
    (h.delivered.mem_iff).mp (List.mem_map_of_mem item.tld hit)
  simp only [deliveredTlds, List.mem_filterMap] at hmem
  obtain ⟨w, hw, hwt⟩ := hmem
  by_cases hd : w.pc.delivered = true
  · simp only [hd, if_true, Option.some.injEq] at hwt
    exact ⟨w, hw, hwt, hd⟩
  · simp [hd] at hwt

/-- C9: in every reachable state the rows of the file after the two header rows
are, in order of arrival, the rows of the items the collector has received, the
row of an item being the byte `|`, its identifier, `|`, its attribute, `|` and a
line feed; the item the collector is about to write is the one exception, and
that write is enabled and appends that row. Every item received was sent by a
worker for its identifier. Once the collector has taken its timeout case it
stays stopped, and no later state has another row in the file or another item
received. -/
theorem collector_stopped_terminal (C : Nat) (tlds : List GoString) (s : State)
    (h : Reachable C tlds s) :
    s.file ++ s.coll.holding.map (fun it => [0x7C] ++ it.tld ++ [0x7C] ++ it.server ++ [0x7C, 0x0A]) =
      [[0x7C, 0x54, 0x4C, 0x44, 0x7C, 0x57, 0x48, 0x4F, 0x49, 0x53, 0x20, 0x53, 0x45, 0x52,
        0x56, 0x45, 0x52, 0x7C, 0x0A],
       [0x7C, 0x2D, 0x2D, 0x2D, 0x7C, 0x2D, 0x2D, 0x2D, 0x7C, 0x0A]] ++
      s.received.map (fun it => [0x7C] ++ it.tld ++ [0x7C] ++ it.server ++ [0x7C, 0x0A]) ∧
    (∀ it ∈ s.received, ∃ w ∈ s.workers, w.tld = it.tld ∧ w.pc.delivered = true) ∧
    (∀ it, s.coll = CollectorPc.writing it →
      ∃ s', exec C tlds s Action.write = some s' ∧ s'.coll = CollectorPc.listening ∧
        s'.received = s.received ∧
        s'.file = s.file ++ [[0x7C] ++ it.tld ++ [0x7C] ++ it.server ++ [0x7C, 0x0A]] ∧
        s'.file =
          [[0x7C, 0x54, 0x4C, 0x44, 0x7C, 0x57, 0x48, 0x4F, 0x49, 0x53, 0x20, 0x53, 0x45, 0x52,
        0x56, 0x45, 0x52, 0x7C, 0x0A],
       [0x7C, 0x2D, 0x2D, 0x2D, 0x7C, 0x2D, 0x2D, 0x2D, 0x7C, 0x0A]] ++
          s.received.map (fun it => [0x7C] ++ it.tld ++ [0x7C] ++ it.server ++ [0x7C, 0x0A])) ∧
    (s.coll.isStopped = true →
      s.file =
        [[0x7C, 0x54, 0x4C, 0x44, 0x7C, 0x57, 0x48, 0x4F, 0x49, 0x53, 0x20, 0x53, 0x45, 0x52,
        0x56, 0x45, 0x52, 0x7C, 0x0A],
       [0x7C, 0x2D, 0x2D, 0x2D, 0x7C, 0x2D, 0x2D, 0x2D, 0x7C, 0x0A]] ++
        s.received.map (fun it => [0x7C] ++ it.tld ++ [0x7C] ++ it.server ++ [0x7C, 0x0A]) ∧
      ∀ s', Reaches C tlds s s' →
        s'.coll.isStopped = true ∧ s'.file = s.file ∧ s'.received = s.received) := by
  have hinv := Inv_reachable h
  have row_eq : ∀ it : item,
      row it = [0x7C] ++ it.tld ++ [0x7C] ++ it.server ++ [0x7C, 0x0A] := by
    intro it
    simp [row, lit]
  have row_fun_eq :
      row = fun it => [0x7C] ++ it.tld ++ [0x7C] ++ it.server ++ [0x7C, 0x0A] :=
    funext row_eq
  have header_eq :
      header =
        [[0x7C, 0x54, 0x4C, 0x44, 0x7C, 0x57, 0x48, 0x4F, 0x49, 0x53, 0x20, 0x53, 0x45, 0x52,
          0x56, 0x45, 0x52, 0x7C, 0x0A],
         [0x7C, 0x2D, 0x2D, 0x2D, 0x7C, 0x2D, 0x2D, 0x2D, 0x7C, 0x0A]] := by
    decide
  have hfile := hinv.file_eq
  rw [row_fun_eq, header_eq] at hfile
  refine ⟨hfile, received_of_worker hinv, ?_, ?_⟩
  · intro it hc
    have hwg : 0 < s.wg := by
      have := hinv.wg_eq
      rw [hc] at this
      simp at this
      omega
    have hm := hinv.not_done hwg
    rw [hc] at hfile
    refine ⟨{ s with coll := CollectorPc.listening, file := s.file ++ [row it] }, ?_, rfl,
      rfl, ?_, ?_⟩
    · simp [exec, hm, execCollector, hc]
    · simp only [row_eq]
    · simp only [row_eq]
      simpa using hfile
  · intro hc
    constructor
    · cases hcoll : s.coll <;> rw [hcoll] at hc hfile <;> simp at hc <;> simpa using hfile
    · intro s' hs'
      obtain ⟨h1, h2, h3, _⟩ := stopped_reaches C tlds s s' hc hs'
      exact ⟨h1, h2, h3⟩

/-- Witness of `collector_stopped_terminal`: two outcomes received and written,
the one for `net` before the one for `com`, then the timeout. -/
theorem collector_stopped_terminal_witness :
    Reachable semNum [lit "com", lit "net"] stoppedState ∧
    stoppedState.file =
      [[0x7C, 0x54, 0x4C, 0x44, 0x7C, 0x57, 0x48, 0x4F, 0x49, 0x53, 0x20, 0x53, 0x45, 0x52,
        0x56, 0x45, 0x52, 0x7C, 0x0A],
       [0x7C, 0x2D, 0x2D, 0x2D, 0x7C, 0x2D, 0x2D, 0x2D, 0x7C, 0x0A]] ++
      stoppedState.received.map (fun it => [0x7C] ++ it.tld ++ [0x7C] ++ it.server ++ [0x7C, 0x0A]) :=
  ⟨⟨[Action.acquire, Action.spawn, Action.acquire, Action.spawn,
      Action.query 0 answeringNet, Action.query 1 answeringNet, Action.deliver 1,
      Action.write, Action.deliver 0, Action.write, Action.timeout], by decide⟩,
    ((collector_stopped_terminal semNum [lit "com", lit "net"] stoppedState
      ⟨[Action.acquire, Action.spawn, Action.acquire, Action.spawn,
        Action.query 0 answeringNet, Action.query 1 answeringNet, Action.deliver 1,
        Action.write, Action.deliver 0, Action.write, Action.timeout], by decide⟩).2.2.2
      rfl).1⟩

/-- C10: when `main` has got past `wg.Wait()`, the collector has ended, every
worker has delivered its item, one worker was spawned per identifier, and the
file holds, after the two header rows, one row per item received, the row of an
item being the byte `|`, its identifier, `|`, its attribute, `|` and a line
feed, where the identifiers of the items received are the feed's identifiers up
to order, duplicates included. And if the collector has stopped while some
spawned worker has not delivered, that worker never delivers and `main` never
gets past `wg.Wait()`. -/
theorem completion_writes_all (C : Nat) (tlds : List GoString) (s : State)
    (h : Reachable C tlds s) :
    (s.main = MainPc.done →
      s.coll = CollectorPc.exited ∧ (∀ w ∈ s.workers, w.pc.delivered = true) ∧
      s.workers.map Worker.tld = tlds ∧
      s.file =
        [[0x7C, 0x54, 0x4C, 0x44, 0x7C, 0x57, 0x48, 0x4F, 0x49, 0x53, 0x20, 0x53, 0x45, 0x52,
        0x56, 0x45, 0x52, 0x7C, 0x0A],
       [0x7C, 0x2D, 0x2D, 0x2D, 0x7C, 0x2D, 0x2D, 0x2D, 0x7C, 0x0A]] ++
        s.received.map (fun it => [0x7C] ++ it.tld ++ [0x7C] ++ it.server ++ [0x7C, 0x0A]) ∧
      (s.received.map item.tld).Perm tlds ∧ s.received.length = tlds.length ∧
      s.file.length = tlds.length + 2) ∧
    (s.coll.isStopped = true → ∀ k, undeliveredAt s k →
      ∀ s', Reaches C tlds s s' → undeliveredAt s' k ∧ s'.main ≠ MainPc.done) := by
  have hinv := Inv_reachable h
  have row_eq : ∀ it : item,
      row it = [0x7C] ++ it.tld ++ [0x7C] ++ it.server ++ [0x7C, 0x0A] := by
    intro it
    simp [row, lit]
  have row_fun_eq :
      row = fun it => [0x7C] ++ it.tld ++ [0x7C] ++ it.server ++ [0x7C, 0x0A] :=
    funext row_eq
  have header_eq :
      header =
        [[0x7C, 0x54, 0x4C, 0x44, 0x7C, 0x57, 0x48, 0x4F, 0x49, 0x53, 0x20, 0x53, 0x45, 0x52,
          0x56, 0x45, 0x52, 0x7C, 0x0A],
         [0x7C, 0x2D, 0x2D, 0x2D, 0x7C, 0x2D, 0x2D, 0x2D, 0x7C, 0x0A]] := by
    decide
  constructor
  · intro hd
    have hwg := hinv.done_wg hd
    have hw := hinv.wg_eq
    rw [hwg] at hw
    have hcount : s.workers.countP (fun w => w.pc.undone) = 0 := by omega
    have hshare : s.coll.wgShare = 0 := by omega
    have hc : s.coll = CollectorPc.exited := by
      cases hcoll : s.coll <;> rw [hcoll] at hshare <;> simp at hshare
    have hall : ∀ w ∈ s.workers, w.pc.delivered = true := by
      intro w hw
      apply delivered_of_not_undone
      have := List.countP_eq_zero.mp hcount w hw
      simpa using this
    have hsp := hinv.spawned
    rw [hd] at hsp
    simp only [dispatched_done, List.take_length] at hsp
    have hf := hinv.file_eq
    rw [hc, row_fun_eq, header_eq] at hf
    simp only [holding_exited, List.map_nil, List.append_nil] at hf
    have hperm := hinv.delivered
    rw [deliveredTlds_all _ hall, hsp] at hperm
    have hlen := hperm.length_eq
    simp only [List.length_map] at hlen
    refine ⟨hc, hall, hsp, hf, hperm, hlen, ?_⟩
    rw [hf]
    simp [hlen]
  · intro hc k hk s' hs'
    obtain ⟨h1, _, _, h4⟩ := stopped_reaches C tlds s s' hc hs'
    have hu := h4 k hk
    refine ⟨hu, ?_⟩
    have hinv' : Inv C tlds s' := Inv_reachable (Reaches.trans h hs')
    obtain ⟨w, hw, hwd⟩ := hu
    have hpos := countP_undone_pos _ k w hw hwd
    apply hinv'.not_done
    have := hinv'.wg_eq
    omega

/-- Witness of `completion_writes_all`: a complete run for `com`, `net` in which
the outcome for `net` is received first. -/
theorem completion_writes_all_witness :
    Reachable semNum [lit "com", lit "net"] completeTwoState ∧
    completeTwoState.file =
      [[0x7C, 0x54, 0x4C, 0x44, 0x7C, 0x57, 0x48, 0x4F, 0x49, 0x53, 0x20, 0x53, 0x45, 0x52,
        0x56, 0x45, 0x52, 0x7C, 0x0A],
       [0x7C, 0x2D, 0x2D, 0x2D, 0x7C, 0x2D, 0x2D, 0x2D, 0x7C, 0x0A]] ++
      completeTwoState.received.map (fun it => [0x7C] ++ it.tld ++ [0x7C] ++ it.server ++ [0x7C, 0x0A]) ∧
    (completeTwoState.received.map item.tld).Perm [lit "com", lit "net"] :=
  ⟨⟨[Action.acquire, Action.spawn, Action.acquire, Action.spawn,
      Action.query 0 answeringNet, Action.query 1 answeringNet, Action.deliver 1,
      Action.write, Action.deliver 0, Action.write, Action.wgDone 0, Action.release 0,
      Action.wgDone 1, Action.release 1, Action.timeout, Action.collDone, Action.finish],
      by decide⟩,
    ((completion_writes_all semNum [lit "com", lit "net"] completeTwoState
      ⟨[Action.acquire, Action.spawn, Action.acquire, Action.spawn,
        Action.query 0 answeringNet, Action.query 1 answeringNet, Action.deliver 1,
        Action.write, Action.deliver 0, Action.write, Action.wgDone 0, Action.release 0,
        Action.wgDone 1, Action.release 1, Action.timeout, Action.collDone, Action.finish],
        by decide⟩).1 rfl).2.2.2.1,
    ((completion_writes_all semNum [lit "com", lit "net"] completeTwoState
      ⟨[Action.acquire, Action.spawn, Action.acquire, Action.spawn,
        Action.query 0 answeringNet, Action.query 1 answeringNet, Action.deliver 1,
        Action.write, Action.deliver 0, Action.write, Action.wgDone 0, Action.release 0,
        Action.wgDone 1, Action.release 1, Action.timeout, Action.collDone, Action.finish],
        by decide⟩).1 rfl).2.2.2.2.1⟩

/-! ## Runs that block -/

theorem set_middle (front back : List Worker) (a b : Worker) :
    (front ++ a :: back).set front.length b = front ++ b :: back := by
  induction front with
  | nil => rfl
  | cons x t ih => simp [List.set, ih]

/-- Every step of the relation `Step` is taken by `exec` under some action. -/
theorem exec_of_Step (C : Nat) (tlds : List GoString) (s s' : State)
    (h : Step C tlds s s') : ∃ a, exec C tlds s a = some s' := by
  cases h with
  | acquire i hm hi hsem =>
    exact ⟨Action.acquire, by simp [exec, execMain, hm, hi, hsem]⟩
  | spawn i tld hm ht =>
    exact ⟨Action.spawn, by simp [exec, execMain, hm, ht]⟩
  | finish i hm hi hwg =>
    exact ⟨Action.finish, by simp [exec, execMain, hm, hi, hwg]⟩
  | query front back w net log it hm hw hpc hq =>
    refine ⟨Action.query front.length net, ?_⟩
    simp only [exec, hm, if_false, hw, getElem?_middle, execWorker, hpc, hq, set_middle]
  | deliver front back w it hm hw hpc hc =>
    refine ⟨Action.deliver front.length, ?_⟩
    simp only [exec, hm, if_false, hw, getElem?_middle, execWorker, hpc, hc, set_middle]
  | wgDone front back w hm hw hpc hwg =>
    refine ⟨Action.wgDone front.length, ?_⟩
    simp only [exec, hm, if_false, hw, getElem?_middle, execWorker, hpc, hwg, if_true,
      set_middle]
  | release front back w hm hw hpc hsem =>
    refine ⟨Action.release front.length, ?_⟩
    simp only [exec, hm, if_false, hw, getElem?_middle, execWorker, hpc, hsem, if_true,
      set_middle]
  | write it hm hc =>
    exact ⟨Action.write, by simp [exec, execCollector, hm, hc]⟩
  | timeout hm hc =>
    exact ⟨Action.timeout, by simp [exec, execCollector, hm, hc]⟩
  | collDone hm hc hwg =>
    exact ⟨Action.collDone, by simp [exec, execCollector, hm, hc, hwg]⟩

theorem Step.reaches {C : Nat} {tlds : List GoString} {s s' : State}
    (h : Step C tlds s s') : Reaches C tlds s s' := by
  obtain ⟨a, ha⟩ := exec_of_Step C tlds s s' h
  exact Reaches.single a ha

theorem Stuck.no_step {C : Nat} {tlds : List GoString} {s s' : State}
    (h : Stuck C tlds s) : ¬ Step C tlds s s' := by
  intro hs
  obtain ⟨a, ha⟩ := exec_of_Step C tlds s s' hs
  rw [h a] at ha
  simp at ha

theorem Stuck.reaches_eq {C : Nat} {tlds : List GoString} {s s' : State}
    (h : Stuck C tlds s) (hr : Reaches C tlds s s') : s' = s := by
  obtain ⟨acts, ha⟩ := hr
  cases acts with
  | nil => simpa [run] using ha.symm
  | cons a rest => simp [run, h a] at ha

theorem Step.reaches_to {C : Nat} {tlds : List GoString} {s s' t : State}
    (h : Step C tlds s s') (heq : s' = t) : Reaches C tlds s t :=
  heq ▸ h.reaches

theorem dispatched_reachable (C : Nat) (tlds : List GoString) (n : Nat) (hC : n ≤ C)
    (hn : n ≤ tlds.length) : Reachable C tlds (dispatchedState tlds n) := by
  induction n with
  | zero => exact Reaches.refl C tlds init
  | succ n ih =>
    have hlt : n < tlds.length := hn
    have h1 : Reaches C tlds (dispatchedState tlds n)
        { main := MainPc.spawn n, coll := CollectorPc.listening,
          workers := (tlds.take n).map queryWorker, sem := n + 1, wg := n + 1,
          file := header, received := [] } :=
      (Step.acquire (dispatchedState tlds n) n rfl hlt hC).reaches_to rfl
    have h2 : Reaches C tlds
        { main := MainPc.spawn n, coll := CollectorPc.listening,
          workers := (tlds.take n).map queryWorker, sem := n + 1, wg := n + 1,
          file := header, received := [] }
        (dispatchedState tlds (n + 1)) :=
      (Step.spawn _ n tlds[n] rfl (List.getElem?_eq_getElem hlt)).reaches_to
        (by
          have ht : tlds.take (n + 1) = tlds.take n ++ [tlds[n]] := by
            rw [List.take_succ, List.getElem?_eq_getElem hlt]
            rfl
          simp only [dispatchedState, ht, List.map_append, List.map_cons, List.map_nil]
          rfl)
    exact (ih (Nat.le_of_succ_le hC) (Nat.le_of_lt hlt)).trans (h1.trans h2)

theorem workerBody_unreachable (t : GoString) :
    workerBody unreachableNet t = some ([⟨t, GoError.external 0⟩], ⟨t, []⟩) := rfl

theorem queries_fail (C : Nat) (tlds : List GoString) (B : List GoString) :
    ∀ (s : State) (A : List Worker), s.main ≠ MainPc.done →
      s.workers = A ++ B.map queryWorker →
      Reaches C tlds s { s with workers := A ++ B.map blockedWorker } := by
  induction B with
  | nil =>
    intro s A _ hw
    simp only [List.map_nil, List.append_nil] at hw ⊢
    rw [← hw]
    exact Reaches.refl C tlds s
  | cons t B ih =>
    intro s A hm hw
    have h1 : Reaches C tlds s
        { s with workers := (A ++ [blockedWorker t]) ++ B.map queryWorker } :=
      (Step.query s A (B.map queryWorker) (queryWorker t)
        unreachableNet _ _ hm (by simpa using hw) rfl (workerBody_unreachable t)).reaches_to
        (by simp [blockedWorker, queryWorker])
    have h2 := ih { s with workers := (A ++ [blockedWorker t]) ++ B.map queryWorker }
      (A ++ [blockedWorker t]) hm rfl
    have heq : (A ++ [blockedWorker t]) ++ B.map blockedWorker
        = A ++ (t :: B).map blockedWorker := by simp
    simp only [heq] at h2
    exact h1.trans h2

theorem blocked_reachable (C : Nat) (tlds : List GoString) (n : Nat) (hC : n ≤ C)
    (hn : n ≤ tlds.length) : Reachable C tlds (blockedState tlds n) := by
  have h0 := dispatched_reachable C tlds n hC hn
  have h1 : Reaches C tlds (dispatchedState tlds n)
      { main := MainPc.loop n, coll := CollectorPc.stopped,
        workers := (tlds.take n).map queryWorker, sem := n, wg := n + 1,
        file := header, received := [] } :=
    (Step.timeout (dispatchedState tlds n) (by simp [dispatchedState]) rfl).reaches_to rfl
  have h2 : Reaches C tlds
      { main := MainPc.loop n, coll := CollectorPc.stopped,
        workers := (tlds.take n).map queryWorker, sem := n, wg := n + 1,
        file := header, received := [] }
      { main := MainPc.loop n, coll := CollectorPc.exited,
        workers := (tlds.take n).map queryWorker, sem := n, wg := n,
        file := header, received := [] } :=
    (Step.collDone _ (by simp) rfl (by simp)).reaches_to (by simp)
  have h3 := queries_fail C tlds (tlds.take n)
      { main := MainPc.loop n, coll := CollectorPc.exited,
        workers := (tlds.take n).map queryWorker, sem := n, wg := n,
        file := header, received := [] } [] (by simp) (by simp)
  have h3' : Reaches C tlds
      { main := MainPc.loop n, coll := CollectorPc.exited,
        workers := (tlds.take n).map queryWorker, sem := n, wg := n,
        file := header, received := [] } (blockedState tlds n) := by
    simpa [blockedState] using h3
  exact h0.trans (h1.trans (h2.trans h3'))

/-- A state is stuck when the collector has ended, every worker stands at its
send, and `main` stands at a send on a full `sem` or at `wg.Wait()` with a
positive counter. -/
theorem stuck_of_blocked (C : Nat) (tlds : List GoString) (s : State) (i : Nat)
    (hc : s.coll = CollectorPc.exited)
    (hw : ∀ w ∈ s.workers, ∃ it, w.pc = WorkerPc.send it)
    (hm : s.main = MainPc.loop i)
    (hi : (i < tlds.length ∧ C ≤ s.sem) ∨ (tlds.length ≤ i ∧ 0 < s.wg)) :
    Stuck C tlds s := by
  intro a
  cases he : exec C tlds s a with
  | none => rfl
  | some s' =>
    exfalso
    have hstep := Step_of_exec C tlds s s' a he
    have hpc : ∀ (front back : List Worker) (w : Worker), s.workers = front ++ w :: back →
        ∃ it, w.pc = WorkerPc.send it := fun front back w h =>
      hw w (by rw [h]; simp)
    cases hstep with
    | acquire j hmj hj hsem =>
      rw [hm] at hmj
      cases hmj
      rcases hi with ⟨_, h⟩ | ⟨h, _⟩ <;> omega
    | spawn j tld hmj ht => rw [hm] at hmj; cases hmj
    | finish j hmj hj hwg =>
      rw [hm] at hmj
      cases hmj
      rcases hi with ⟨h, _⟩ | ⟨_, h⟩ <;> omega
    | query front back w net log it hmd hws hq _ =>
      obtain ⟨it', h⟩ := hpc front back w hws
      rw [h] at hq
      cases hq
    | deliver front back w it hmd hws hq hcl => rw [hc] at hcl; cases hcl
    | wgDone front back w hmd hws hq _ =>
      obtain ⟨it', h⟩ := hpc front back w hws
      rw [h] at hq
      cases hq
    | release front back w hmd hws hq _ =>
      obtain ⟨it', h⟩ := hpc front back w hws
      rw [h] at hq
      cases hq
    | write it hmd hcl => rw [hc] at hcl; cases hcl
    | timeout hmd hcl => rw [hc] at hcl; cases hcl
    | collDone hmd hcl _ => rw [hc] at hcl; cases hcl

theorem blockedState_stuck_full (C : Nat) (tlds : List GoString) (hlen : C < tlds.length) :
    Stuck C tlds (blockedState tlds C) :=
  stuck_of_blocked C tlds _ C rfl
    (by
      intro w hw
      simp only [blockedState, List.mem_map] at hw
      obtain ⟨t, _, rfl⟩ := hw
      exact ⟨_, rfl⟩)
    rfl (Or.inl ⟨hlen, Nat.le_refl _⟩)

theorem blockedState_stuck_all (C : Nat) (tlds : List GoString) (hpos : 0 < tlds.length) :
    Stuck C tlds (blockedState tlds tlds.length) :=
  stuck_of_blocked C tlds _ tlds.length rfl
    (by
      intro w hw
      simp only [blockedState, List.mem_map] at hw
      obtain ⟨t, _, rfl⟩ := hw
      exact ⟨_, rfl⟩)
    rfl (Or.inr ⟨Nat.le_refl _, hpos⟩)

/-! ## Workers that run to their end -/

theorem workerBody_total (net : Network) (tld : GoString) :
    ∃ log it, workerBody net tld = some (log, it) := by
  have hq : ∃ server err, queryWhoisServer net tld = some (server, err) := by
    unfold queryWhoisServer
    cases net.dialErr with
    | some e => exact ⟨_, _, rfl⟩
    | none =>
      obtain ⟨server, err, h, _⟩ := search_total (net.respond (tld ++ [0x0D, 0x0A]))
      exact ⟨server, err, h⟩
  obtain ⟨server, err, hq⟩ := hq
  cases err with
  | none => exact ⟨[], ⟨tld, server⟩, by simp [workerBody, hq]⟩
  | some e => exact ⟨[⟨tld, e⟩], ⟨tld, server⟩, by simp [workerBody, hq]⟩

theorem Inv.wg_pos {C : Nat} {tlds : List GoString} {s : State} (h : Inv C tlds s)
    (hc : s.coll ≠ CollectorPc.exited) : 0 < s.wg := by
  have := h.wg_eq
  cases hcoll : s.coll <;> rw [hcoll] at this <;> simp at this <;>
    first | omega | exact absurd hcoll hc

theorem Inv.sem_pos {C : Nat} {tlds : List GoString} {s : State} (h : Inv C tlds s)
    (front back : List Worker) (w : Worker) (hw : s.workers = front ++ w :: back)
    (ha : w.pc.active = true) : 0 < s.sem := by
  have := h.sem_eq
  simp only [running, hw, List.countP_append, List.countP_cons, ha, if_true] at this
  omega

theorem finish_from_release (C : Nat) (tlds : List GoString) (s : State)
    (h : Reachable C tlds s) (front back : List Worker) (w : Worker)
    (hw : s.workers = front ++ w :: back) (hpc : w.pc = WorkerPc.release)
    (hc : s.coll ≠ CollectorPc.exited) :
    ∃ s', Reaches C tlds s s' ∧ s'.received = s.received ∧
      s'.workers = front ++ ⟨w.tld, WorkerPc.finished, 1⟩ :: back := by
  have hinv := Inv_reachable h
  have hm := hinv.not_done (hinv.wg_pos hc)
  have hsem := hinv.sem_pos front back w hw (by rw [hpc]; rfl)
  have hrel : w.releases = 0 := by
    have := hinv.releases_eq w (by rw [hw]; simp)
    simpa [hpc] using this
  refine ⟨_, (Step.release s front back w hm hw hpc hsem).reaches, rfl, ?_⟩
  simp [hrel]

theorem finish_from_deferred (C : Nat) (tlds : List GoString) (s : State)
    (h : Reachable C tlds s) (front back : List Worker) (w : Worker)
    (hw : s.workers = front ++ w :: back) (hpc : w.pc = WorkerPc.deferred)
    (hc : s.coll ≠ CollectorPc.exited) :
    ∃ s', Reaches C tlds s s' ∧ s'.received = s.received ∧
      s'.workers = front ++ ⟨w.tld, WorkerPc.finished, 1⟩ :: back := by
  have hinv := Inv_reachable h
  have hwg := hinv.wg_pos hc
  have hm := hinv.not_done hwg
  have h1 := (@Step.wgDone C tlds s front back w hm hw hpc hwg).reaches
  obtain ⟨s', h2, hr, hws⟩ := finish_from_release C tlds _ (Reaches.trans h h1) front back
    { w with pc := WorkerPc.release } rfl rfl hc
  exact ⟨s', h1.trans h2, hr, hws⟩

theorem listen_reaches (C : Nat) (tlds : List GoString) (s : State)
    (h : Reachable C tlds s) (hc : s.coll.isStopped = false) :
    ∃ s1, Reaches C tlds s s1 ∧ s1.coll = CollectorPc.listening ∧
      s1.workers = s.workers ∧ s1.received = s.received := by
  have hinv := Inv_reachable h
  cases hcoll : s.coll with
  | listening => exact ⟨s, Reaches.refl C tlds s, hcoll, rfl, rfl⟩
  | writing it =>
    have hm := hinv.not_done (hinv.wg_pos (by rw [hcoll]; simp))
    exact ⟨_, (Step.write s it hm hcoll).reaches, rfl, rfl, rfl⟩
  | stopped => rw [hcoll] at hc; simp at hc
  | exited => rw [hcoll] at hc; simp at hc

theorem finish_from_send (C : Nat) (tlds : List GoString) (s : State)
    (h : Reachable C tlds s) (front back : List Worker) (w : Worker) (it : item)
    (hw : s.workers = front ++ w :: back) (hpc : w.pc = WorkerPc.send it)
    (hc : s.coll.isStopped = false) :
    ∃ s', Reaches C tlds s s' ∧ s'.received = s.received ++ [it] ∧
      s'.workers = front ++ ⟨w.tld, WorkerPc.finished, 1⟩ :: back := by
  obtain ⟨s1, h1, hl, hws, hr1⟩ := listen_reaches C tlds s h hc
  have hinv1 := Inv_reachable (Reaches.trans h h1)
  have hm := hinv1.not_done (hinv1.wg_pos (by rw [hl]; simp))
  have h2 := (@Step.deliver C tlds s1 front back w it hm (hws.trans hw) hpc
    hl).reaches
  obtain ⟨s', h3, hr, hws'⟩ := finish_from_deferred C tlds _
    (Reaches.trans h (h1.trans h2)) front back { w with pc := WorkerPc.deferred } rfl rfl
    (by simp)
  exact ⟨s', h1.trans (h2.trans h3), by rw [hr]; simp [hr1], hws'⟩

theorem finish_from_query (C : Nat) (tlds : List GoString) (s : State)
    (h : Reachable C tlds s) (front back : List Worker) (w : Worker) (net : Network)
    (log : List LogEntry) (it : item)
    (hw : s.workers = front ++ w :: back) (hpc : w.pc = WorkerPc.query)
    (hq : workerBody net w.tld = some (log, it)) (hc : s.coll.isStopped = false) :
    ∃ s', Reaches C tlds s s' ∧ s'.received = s.received ++ [it] ∧
      s'.workers = front ++ ⟨w.tld, WorkerPc.finished, 1⟩ :: back := by
  have hinv := Inv_reachable h
  have hm := hinv.not_done (hinv.wg_pos (by
    intro he
    rw [he] at hc
    simp at hc))
  have h1 := (@Step.query C tlds s front back w net log it hm hw hpc hq).reaches
  obtain ⟨s', h2, hr, hws⟩ := finish_from_send C tlds _ (Reaches.trans h h1) front back
    { w with pc := WorkerPc.send it } it rfl rfl hc
  exact ⟨s', h1.trans h2, hr, hws⟩

/-! ## The dispatch loop and the slots -/

/-- C7 (counterexample): with the capacity of 100 and a feed of 101 identifiers
there is a run that ends with every goroutine blocked and only 100 workers
spawned: the collector has taken its timeout, the 100 workers wait at their send
and `main` waits at its send on the full `sem`. -/
theorem dispatch_blocked_counterexample :
    ∃ s, Reachable semNum (List.replicate 101 (lit "com")) s ∧
      Stuck semNum (List.replicate 101 (lit "com")) s ∧
      s.main = MainPc.loop 100 ∧ s.workers.length = 100 ∧
      s.workers.map Worker.tld ≠ List.replicate 101 (lit "com") := by
  refine ⟨blockedState (List.replicate 101 (lit "com")) semNum,
    blocked_reachable _ _ _ (Nat.le_refl _) (by simp [semNum]),
    blockedState_stuck_full _ _ (by simp [semNum]), rfl, ?_, ?_⟩
  · simp [blockedState, semNum]
  · intro h
    have := congrArg List.length h
    simp [blockedState, semNum] at this

/-- C7 (amended): in every reachable state the workers spawned so far are, in
order, the first `k` identifiers of the feed, one worker each, where `k` counts
the loop iterations done; when the loop is at its end there is one worker per
identifier; a step either leaves the workers' arguments as they are or is the
`go` statement for the next identifier, which adds one worker for it; and when
the feed is longer than the capacity `C` there is a run that ends blocked, the
collector ended, with `C` workers spawned and `main` at its send on `sem`. -/
theorem workers_follow_feed (C : Nat) (tlds : List GoString) (s : State)
    (h : Reachable C tlds s) :
    s.workers.map Worker.tld = tlds.take (s.main.dispatched tlds.length) ∧
    s.main.dispatched tlds.length ≤ tlds.length ∧
    (s.main = MainPc.loop tlds.length ∨ s.main = MainPc.done →
      s.workers.map Worker.tld = tlds) ∧
    (∀ a s', exec C tlds s a = some s' →
      s'.workers.map Worker.tld = s.workers.map Worker.tld ∨
      ∃ i tld, s.main = MainPc.spawn i ∧ tlds[i]? = some tld ∧ s'.main = MainPc.loop (i + 1) ∧
        s'.workers.map Worker.tld = s.workers.map Worker.tld ++ [tld]) ∧
    (C < tlds.length →
      ∃ t, Reachable C tlds t ∧ Stuck C tlds t ∧ t.coll = CollectorPc.exited ∧
        t.main = MainPc.loop C ∧ t.workers.length = C) := by
  have hinv := Inv_reachable h
  refine ⟨hinv.spawned, hinv.disp_le, ?_, ?_, fun hC =>
    ⟨blockedState tlds C, blocked_reachable C tlds C (Nat.le_refl _) (Nat.le_of_lt hC),
      blockedState_stuck_full C tlds hC, rfl, rfl,
      by simp [blockedState, Nat.min_eq_left (Nat.le_of_lt hC)]⟩⟩
  · intro hm
    have hsp := hinv.spawned
    rcases hm with hm | hm <;> rw [hm] at hsp <;> simpa using hsp
  · intro a s' he
    have hstep := Step_of_exec C tlds s s' a he
    cases hstep with
    | acquire i hm hi hsem => exact Or.inl rfl
    | spawn i tld hm ht => exact Or.inr ⟨i, tld, hm, ht, rfl, by simp⟩
    | finish i hm hi hwg => exact Or.inl rfl
    | query front back w net log it hm hw hpc hq => left; simp [hw]
    | deliver front back w it hm hw hpc hc => left; simp [hw]
    | wgDone front back w hm hw hpc hwg => left; simp [hw]
    | release front back w hm hw hpc hsem => left; simp [hw]
    | write it hm hc => exact Or.inl rfl
    | timeout hm hc => exact Or.inl rfl
    | collDone hm hc hwg => exact Or.inl rfl

/-- Witness of `workers_follow_feed`: the feed `a`, `a`, `b` with the loop at its
end has three workers, for `a`, `a` and `b`. -/
theorem workers_follow_feed_witness :
    Reachable semNum [lit "a", lit "a", lit "b"] threeSpawnedState ∧
    threeSpawnedState.workers.map Worker.tld = [lit "a", lit "a", lit "b"] :=
  ⟨⟨[Action.acquire, Action.spawn, Action.acquire, Action.spawn, Action.acquire,
      Action.spawn], by decide⟩,
    (workers_follow_feed semNum [lit "a", lit "a", lit "b"] threeSpawnedState
      ⟨[Action.acquire, Action.spawn, Action.acquire, Action.spawn, Action.acquire,
        Action.spawn], by decide⟩).2.2.1 (Or.inl rfl)⟩

/-- C8 (counterexample): for the feed `com` there is a reachable state in which
the one worker holds its slot, waiting at its send after the collector has
ended, and no action is enabled: in every state reachable from it the worker
still holds the slot and has released nothing. -/
theorem slot_leak_counterexample :
    ∃ s, Reachable semNum [lit "com"] s ∧
      s.workers = [blockedWorker (lit "com")] ∧ s.sem = 1 ∧
      s.coll = CollectorPc.exited ∧
      ∀ s', Reaches semNum [lit "com"] s s' →
        s'.workers = [blockedWorker (lit "com")] ∧ s'.sem = 1 := by
  refine ⟨blockedState [lit "com"] 1,
    blocked_reachable _ _ _ (by decide) (by decide), rfl, rfl, rfl, ?_⟩
  intro s' hs'
  have hstuck : Stuck semNum [lit "com"] (blockedState [lit "com"] 1) :=
    blockedState_stuck_all semNum [lit "com"] (by decide)
  rw [hstuck.reaches_eq hs']
  exact ⟨rfl, rfl⟩

/-- C8 (amended): in every reachable state a worker has taken a value out of
`sem` once if it has finished and never otherwise, and the values in `sem` are
those of the unfinished workers and of the slot `main` holds for the next one;
while the collector has not stopped, every worker can run to its end and release
its slot, whatever its query returns (the item it sends is then received); once
the collector has stopped, a worker that has not delivered never delivers, so it
never reaches its release. -/
theorem slot_released_once (C : Nat) (tlds : List GoString) (s : State)
    (h : Reachable C tlds s) :
    (∀ w ∈ s.workers, w.releases ≤ 1 ∧ (w.releases = 1 ↔ w.pc = WorkerPc.finished) ∧
      (w.releases = 0 ↔ w.pc.active = true)) ∧
    s.sem = running s + s.main.pending ∧
    (s.coll.isStopped = false → ∀ front back w, s.workers = front ++ w :: back →
      (∃ s', Reaches C tlds s s' ∧
        s'.workers = front ++ ⟨w.tld, WorkerPc.finished, 1⟩ :: back) ∧
      (∀ net log it, w.pc = WorkerPc.query → workerBody net w.tld = some (log, it) →
        ∃ s', Reaches C tlds s s' ∧ s'.received = s.received ++ [it] ∧
          s'.workers = front ++ ⟨w.tld, WorkerPc.finished, 1⟩ :: back)) ∧
    (s.coll.isStopped = true → ∀ k, undeliveredAt s k →
      ∀ s', Reaches C tlds s s' → undeliveredAt s' k) := by
  have hinv := Inv_reachable h
  refine ⟨?_, hinv.sem_eq, ?_, fun hc k hk s' hs' =>
    (stopped_reaches C tlds s s' hc hs').2.2.2 k hk⟩
  · intro w hw
    have hr := hinv.releases_eq w hw
    cases hpc : w.pc <;> rw [hpc] at hr <;> simp at hr <;> simp [hr]
  · intro hc front back w hw
    have hne : s.coll ≠ CollectorPc.exited := by
      intro he
      rw [he] at hc
      simp at hc
    constructor
    · cases hpc : w.pc with
      | query =>
        obtain ⟨log, it, hq⟩ := workerBody_total answeringNet w.tld
        obtain ⟨s', h1, _, h2⟩ :=
          finish_from_query C tlds s h front back w answeringNet log it hw hpc hq hc
        exact ⟨s', h1, h2⟩
      | send it =>
        obtain ⟨s', h1, _, h2⟩ := finish_from_send C tlds s h front back w it hw hpc hc
        exact ⟨s', h1, h2⟩
      | deferred =>
        obtain ⟨s', h1, _, h2⟩ := finish_from_deferred C tlds s h front back w hw hpc hne
        exact ⟨s', h1, h2⟩
      | release =>
        obtain ⟨s', h1, _, h2⟩ := finish_from_release C tlds s h front back w hw hpc hne
        exact ⟨s', h1, h2⟩
      | finished =>
        refine ⟨s, Reaches.refl C tlds s, ?_⟩
        have hr := hinv.releases_eq w (by rw [hw]; simp)
        rw [hpc] at hr
        simp at hr
        rw [hw]
        congr
        cases w
        simp_all
    · intro net log it hpc hq
      exact finish_from_query C tlds s h front back w net log it hw hpc hq hc

/-- Witness of `slot_released_once`: at the end of the complete run for `com`
its worker has released once. -/
theorem slot_released_once_witness :
    Reachable semNum [lit "com"] completeState ∧
    ∀ w ∈ completeState.workers, w.releases ≤ 1 ∧
      (w.releases = 1 ↔ w.pc = WorkerPc.finished) ∧ (w.releases = 0 ↔ w.pc.active = true) :=
  ⟨⟨[Action.acquire, Action.spawn, Action.query 0 answeringNet, Action.deliver 0,
      Action.write, Action.wgDone 0, Action.release 0, Action.timeout, Action.collDone,
      Action.finish], by decide⟩,
    (slot_released_once semNum [lit "com"] completeState
      ⟨[Action.acquire, Action.spawn, Action.query 0 answeringNet, Action.deliver 0,
        Action.write, Action.wgDone 0, Action.release 0, Action.timeout, Action.collDone,
        Action.finish], by decide⟩).1⟩

end WhoisQuery
